import Mathlib

/-!
# Verification of the ITDK topology graph builder and shortest-path engine

Shallow embedding of `src/analysis/itdk_links.py`:

* `Graph` / `Graph.addEdge` embed the Python `Graph` class (`add_edge`):
  a Python `dict` keyed by vertex whose values are adjacency lists.  The
  dict is modelled by an association list in insertion order (Python
  dicts preserve insertion order and have unique keys).
* `Graph.dijkstra` embeds `Graph.dijkstra`: a lazy uniform-cost search
  driven by a `heapq` priority queue of `(distance, node)` pairs.
* `processLink` / `knownInterfaces` embed the per-record body of
  `load_itdk_graph_from_links`.
* `parseLinkLine` embeds the per-line comment/regex handling of
  `load_itdk_graph_from_links` (the `^link L(?:\d+): +([N\d.: ]+)`
  pattern used with `re.match`).
* `batchPaths` embeds the query loop at the bottom of `main`.

The file is organised as definitions first, then theorems.
-/

namespace ItdkLinks

/-! ## Association lists

Python `dict`s preserve insertion order and have unique keys.  We model
them as association lists: lookup scans from the front (keys are unique
in every state the code constructs, so which occurrence wins is moot),
`aset` replaces the value of an existing key in place and otherwise
appends the new binding at the end, exactly like a dict assignment. -/

variable {V : Type} [DecidableEq V] {A : Type}

/-- Dict lookup: value of the first binding of key `k`, if any. -/
def aget : List (V × A) → V → Option A
  | [], _ => none
  | (k', v) :: t, k => if k = k' then some v else aget t k

/-- Dict assignment `m[k] = v`: overwrite the existing binding or append. -/
def aset : List (V × A) → V → A → List (V × A)
  | [], k, v => [(k, v)]
  | (k', v') :: t, k, v => if k = k' then (k, v) :: t else (k', v') :: aset t k v

/-! ## The Graph class (`Graph.__init__`, `Graph.add_edge`) -/

/-- The Python `Graph`: `self.graph` is a dict from vertex to adjacency list. -/
structure Graph (V : Type) where
  adj : List (V × List V)

/-- `self.graph.get(u, [])`: adjacency list of `u`, empty when absent.
(`dijkstra` reads adjacency exactly this way.) -/
def Graph.nbrs (g : Graph V) (u : V) : List V := (aget g.adj u).getD []

/-- `if u not in self.graph: self.graph[u] = []`. -/
def ensureKey (m : List (V × List V)) (k : V) : List (V × List V) :=
  if (aget m k).isSome then m else m ++ [(k, [])]

/-- `self.graph[k].append(x)` (no-op on a missing key; `add_edge` only
appends to keys it has just ensured). -/
def appendAdj (m : List (V × List V)) (k : V) (x : V) : List (V × List V) :=
  m.map fun p => if p.1 = k then (p.1, p.2 ++ [x]) else p

/-- `Graph.add_edge(u, v)`: ensure `u` is a key and append `v` to its list,
then ensure `v` is a key and append `u` to its list. -/
def Graph.addEdge (g : Graph V) (u v : V) : Graph V :=
  ⟨appendAdj (ensureKey (appendAdj (ensureKey g.adj u) u v) v) v u⟩

/-- The empty graph (`Graph.__init__`). -/
def Graph.empty : Graph V := ⟨[]⟩

/-- Graph built by a sequence of `add_edge` calls starting from an empty graph. -/
def buildG (es : List (V × V)) : Graph V :=
  es.foldl (fun g e => g.addEdge e.1 e.2) Graph.empty

/-- Keys of the adjacency dict. -/
def Graph.keys (g : Graph V) : List V := g.adj.map Prod.fst

/-- Both directions of an edge are recorded (as `add_edge` produces). -/
def Graph.hasEdge (g : Graph V) (a b : V) : Prop := b ∈ g.nbrs a ∧ a ∈ g.nbrs b

/-- Adjacency symmetry invariant of the spec. -/
def Graph.Sym (g : Graph V) : Prop := ∀ u v : V, v ∈ g.nbrs u ↔ u ∈ g.nbrs v

/-- Well-formedness that every value of the Python `Graph` class enjoys:
the dict has unique keys, and every recorded neighbor is itself a key
(`add_edge` always inserts both endpoints).  On a graph violating the
second condition the Python `dijkstra` would raise `KeyError` at
`distances[neighbor]` instead of returning a value. -/
def Graph.WF (g : Graph V) : Prop :=
  (g.adj.map Prod.fst).Nodup ∧ ∀ p ∈ g.adj, ∀ x ∈ p.2, x ∈ g.keys

instance (g : Graph V) : Decidable g.WF :=
  inferInstanceAs
    (Decidable ((g.adj.map Prod.fst).Nodup ∧ ∀ p ∈ g.adj, ∀ x ∈ p.2, x ∈ g.keys))

/-! ## Unweighted reachability and true shortest distance

`reachIn g s n z` says the recorded adjacency admits a walk of at most `n`
hops from `s` to `z`.  This is the mathematical yardstick the claims
measure `dijkstra` against. -/

def reachIn (g : Graph V) (s : V) : Nat → V → Prop
  | 0, z => z = s
  | n + 1, z => reachIn g s n z ∨ ∃ u, u ∈ g.keys ∧ reachIn g s n u ∧ z ∈ g.nbrs u

instance reachInDecidable (g : Graph V) (s : V) :
    (n : Nat) → (z : V) → Decidable (reachIn g s n z)
  | 0, z => inferInstanceAs (Decidable (z = s))
  | n + 1, z =>
    haveI : Decidable (reachIn g s n z) := reachInDecidable g s n z
    haveI : DecidablePred (fun u => reachIn g s n u ∧ z ∈ g.nbrs u) :=
      fun u =>
        haveI : Decidable (reachIn g s n u) := reachInDecidable g s n u
        inferInstanceAs (Decidable (_ ∧ _))
    inferInstanceAs (Decidable (_ ∨ ∃ u ∈ g.keys, reachIn g s n u ∧ z ∈ g.nbrs u))

/-- `z` is reachable from `s` along recorded adjacency. -/
def Reachable (g : Graph V) (s z : V) : Prop := ∃ n, reachIn g s n z

/-- `n` is the true unweighted shortest-path distance from `s` to `z`. -/
def shortestDist (g : Graph V) (s z : V) (n : Nat) : Prop :=
  reachIn g s n z ∧ ∀ m < n, ¬ reachIn g s m z

/-! ## The graph builder (`load_itdk_graph_from_links`), per link record -/

/-- `router.split(':', 1)[0]`: the characters before the first `':'`. -/
def stripTok (tok : List Char) : List Char := tok.takeWhile (fun c => c ≠ ':')

/-- `known_interfaces.add(ip)`: a Python `set` modelled as a duplicate-free
list in insertion order (the claims only depend on its membership). -/
def addUnique [DecidableEq A] (acc : List A) (x : A) : List A :=
  if x ∈ acc then acc else acc ++ [x]

/-- The `known_interfaces` set of one link record: for every token, look up
the node id (the part before `':'`) in `itdk_node_id_to_ips` and union the
resulting IP lists. -/
def knownInterfaces (idx : List (List Char × List (List Char)))
    (tokens : List (List Char)) : List (List Char) :=
  tokens.foldl (fun acc tok => ((aget idx (stripTok tok)).getD []).foldl addUnique acc) []

/-- `itertools.combinations(l, 2)` in iteration order. -/
def pairsList : List A → List (A × A)
  | [] => []
  | x :: t => t.map (fun y => (x, y)) ++ pairsList t

/-- The per-record body of `load_itdk_graph_from_links`: skip the record if
fewer than two distinct known interfaces, otherwise `add_edge` every pair.
(Python iterates the `known_interfaces` set in unspecified hash order; we
use insertion order — the claims only concern edge membership, which is
order-independent.) -/
def processLink (idx : List (List Char × List (List Char)))
    (tokens : List (List Char)) (g : Graph (List Char)) : Graph (List Char) :=
  let ips := knownInterfaces idx tokens
  if ips.length ≤ 1 then g
  else (pairsList ips).foldl (fun g' p => g'.addEdge p.1 p.2) g

/-! ## The line format (`re_link` and the comment check) -/

/-- The regex character class `[N\d.: ]`. -/
def isClsChar (c : Char) : Bool :=
  c == 'N' || c.isDigit || c == '.' || c == ':' || c == ' '

/-- Outcome of processing one line: a comment (silently skipped), a
reported-and-skipped unmatched line, or the extracted node-id tokens. -/
inductive LineResult where
  | comment : LineResult
  | bad : LineResult
  | tokens : List (List Char) → LineResult
deriving DecidableEq

/-- Strip a literal character sequence from the front, or fail. -/
def dropLit : List Char → List Char → Option (List Char)
  | [], cs => some cs
  | _ :: _, [] => none
  | p :: ps, c :: cs => if c = p then dropLit ps cs else none

/-- `str.split()` on a string whose only whitespace is `' '`
(the `[N\d.: ]` class contains no other whitespace): split on runs of
spaces, dropping empty pieces.  `acc` holds the current token reversed. -/
def splitWsAux : List Char → List Char → List (List Char)
  | [], acc => if acc = [] then [] else [acc.reverse]
  | c :: t, acc =>
    if c = ' ' then
      if acc = [] then splitWsAux t [] else acc.reverse :: splitWsAux t []
    else splitWsAux t (c :: acc)

def splitWs (cs : List Char) : List (List Char) := splitWsAux cs []

/-- The literal part `link L` of the pattern. -/
def linkLit : List Char := ['l', 'i', 'n', 'k', ' ', 'L']

/-- One line of `load_itdk_graph_from_links`' loop: the `startswith('#')`
comment check, then `re_link.match(line)` with
`re_link = ^link L(?:\d+): +([N\d.: ]+)` (note: no `$` anchor; `re.match`
anchors at the start only).  After `link L`, `\d+` greedily takes the
digit run and `':'` must follow.  For `' +([N\d.: ]+)'`: since `' '` is in
the class, the regex matches iff the remainder starts with a space and the
maximal class run from the start of the remainder has length at least two;
the captured group is then that class run minus leading spaces that ` +`
consumed — whose `split()` equals the `split()` of the whole run.
Matched lines yield `m.group(1).split()` with each token cut at its first
`':'` (`router.split(':', 1)[0]`). -/
def parseLinkLine (cs : List Char) : LineResult :=
  if cs.head? = some '#' then .comment
  else
    match dropLit linkLit cs with
    | none => .bad
    | some rest1 =>
      if rest1.takeWhile Char.isDigit = [] then .bad
      else
        match rest1.drop (rest1.takeWhile Char.isDigit).length with
        | ':' :: rest3 =>
          if rest3.head? = some ' ' ∧ 2 ≤ (rest3.takeWhile isClsChar).length then
            .tokens ((splitWs (rest3.takeWhile isClsChar)).map stripTok)
          else .bad
        | _ => .bad

/-- The file loop of `load_itdk_graph_from_links`: one fold over the lines;
comment lines and unmatched lines (the latter reported to stderr) are
skipped and processing continues; matched lines feed `processLink`. -/
def loadLines (idx : List (List Char × List (List Char)))
    (g : Graph (List Char)) (lines : List (List Char)) : Graph (List Char) :=
  lines.foldl
    (fun g' line =>
      match parseLinkLine line with
      | .comment => g'
      | .bad => g'
      | .tokens ts => processLink idx ts g')
    g

/-- A line of the shape `^link L\d+: +([N\d.: ]+)` (unanchored at the end,
as the code's regex is): some decomposition into the literal, a nonempty
digit run, `':'`, a nonempty space run, a nonempty class run, and an
arbitrary remainder. -/
def LinkShape (cs : List Char) : Prop :=
  ∃ ds sp run rest, cs = linkLit ++ ds ++ ':' :: (sp ++ run ++ rest) ∧
    ds ≠ [] ∧ (∀ c ∈ ds, c.isDigit) ∧
    sp ≠ [] ∧ (∀ c ∈ sp, c = ' ') ∧
    run ≠ [] ∧ (∀ c ∈ run, isClsChar c)

/-- The spec's claimed shape `^link L\d+: +([N\d.: ]+)$`: as `LinkShape`
but anchored — nothing may follow the captured class run. -/
def AnchoredLinkShape (cs : List Char) : Prop :=
  ∃ ds sp run, cs = linkLit ++ ds ++ ':' :: (sp ++ run) ∧
    ds ≠ [] ∧ (∀ c ∈ ds, c.isDigit) ∧
    sp ≠ [] ∧ (∀ c ∈ sp, c = ' ') ∧
    run ≠ [] ∧ (∀ c ∈ run, isClsChar c)

/-- Decision procedure for `AnchoredLinkShape` (proved equivalent in
`anchoredMatch_iff`): after `link L`, a nonempty digit run, `':'`, the
rest must start with a space, be at least two characters, and consist of
class characters only. -/
def anchoredMatch (cs : List Char) : Bool :=
  match dropLit linkLit cs with
  | none => false
  | some rest1 =>
    if rest1.takeWhile Char.isDigit = [] then false
    else
      match rest1.drop (rest1.takeWhile Char.isDigit).length with
      | ':' :: tail =>
        decide (tail.head? = some ' ') && decide (2 ≤ tail.length) && tail.all isClsChar
      | _ => false

/-! ## The shortest-path search (`Graph.dijkstra`)

Vertices are IP addresses; we take them as natural numbers (the spec's
`VertexId` is a 32-bit integer).  The `heapq` priority queue holds
`(distance, node)` tuples compared lexicographically; all tuples in the
queue are pairwise distinct (a node is re-pushed only with a strictly
smaller distance), so `heappop` returns the unique smallest tuple —
modelled by `popMin`, which removes the first occurrence of the smallest
pair. -/

/-- Search state: the `min_heap` list, the `distances` dict (a missing key
stands for the initial `float('inf')` — `Graph.dijkstra` initialises every
graph key to infinity and only ever reads entries of graph keys), and the
`prev` dict. -/
structure DState where
  heap : List (Nat × Nat)
  dist : List (Nat × Nat)
  prev : List (Nat × Nat)

/-- Lexicographic order on `heapq` tuples. -/
def pairLe (a b : Nat × Nat) : Prop := a.1 < b.1 ∨ (a.1 = b.1 ∧ a.2 ≤ b.2)

instance (a b : Nat × Nat) : Decidable (pairLe a b) :=
  inferInstanceAs (Decidable (_ ∨ _))

/-- `heapq.heappop`: remove and return a minimal pair (the first occurrence
of the minimum; queue contents are pairwise distinct in every reachable
state, so this is the unique minimum). -/
def popMin : List (Nat × Nat) → Option ((Nat × Nat) × List (Nat × Nat))
  | [] => none
  | x :: t =>
    match popMin t with
    | none => some (x, [])
    | some (m, r) => if pairLe x m then some (x, t) else some (m, x :: r)

/-- The body of `for neighbor in self.graph.get(current_node, [])`:
`distance = distances[current_node] + 1`; if it improves
`distances[neighbor]` (a missing entry is `inf`), update the distance,
push `(distance, neighbor)` and set `prev[neighbor]`.  (`current_node`
always has a finite recorded distance when this runs, so the `getD 0`
default is never taken.) -/
def relax (cur : Nat) (st : DState) (n : Nat) : DState :=
  let d := (aget st.dist cur).getD 0 + 1
  match aget st.dist n with
  | none => ⟨st.heap ++ [(d, n)], aset st.dist n d, aset st.prev n cur⟩
  | some dn =>
    if d < dn then ⟨st.heap ++ [(d, n)], aset st.dist n d, aset st.prev n cur⟩
    else st

/-- Relax every neighbor of the popped node, in adjacency-list order. -/
def step (g : Graph Nat) (st : DState) (cur : Nat) : DState :=
  (g.nbrs cur).foldl (relax cur) st

/-- The `while min_heap` loop.  `cur` is the Python `current_node` (the
most recently popped node).  Returns the final `current_node` and state:
either the heap emptied, or a destination was popped (`break`).  The
`fuel` argument is a termination device only; `dijkstraFuel` below is
proved sufficient, so the `none` (out-of-fuel) branch is unreachable. -/
def go (g : Graph Nat) (D : List Nat) : Nat → DState → Nat → Option (Nat × DState)
  | 0, _, _ => none
  | fuel + 1, st, cur =>
    match popMin st.heap with
    | none => some (cur, st)
    | some (e, h') =>
      if e.2 ∈ D then some (e.2, ⟨h', st.dist, st.prev⟩)
      else go g D fuel (step g ⟨h', st.dist, st.prev⟩ e.2) e.2

/-- Path reconstruction: `path = [current]; while current != start:
current = prev[current]; path.append(current); path.reverse()` — built
here by prepending, which yields the reversed (source-first) list
directly.  The caller passes `acc = [cur]`.  The fuel bounds the chain
length (recorded distances strictly decrease along `prev`, so
`dist.length + 1` is proved sufficient); a missing `prev` entry would be
a Python `KeyError` and is unreachable from the call site. -/
def buildPath (start : Nat) (prevm : List (Nat × Nat)) :
    Nat → Nat → List Nat → List Nat
  | 0, _, acc => acc
  | fuel + 1, cur, acc =>
    if cur = start then acc
    else
      match aget prevm cur with
      | some c => buildPath start prevm fuel c (c :: acc)
      | none => acc

/-- Total length of all adjacency lists. -/
def totalAdj (g : Graph Nat) : Nat := (g.adj.map (fun p => p.2.length)).sum

/-- Loop fuel, proved sufficient for every graph (`go_total` below):
the search performs at most `1 +` (number of pushes) iterations, each
push strictly decreases a recorded distance, each recorded distance is
below the number of recorded entries, and entries live in a domain of at
most `totalAdj g + 1` vertices. -/
def dijkstraFuel (g : Graph Nat) : Nat := (totalAdj g + 3) * (totalAdj g + 3)

/-- `Graph.dijkstra(start, destinations)`. -/
def Graph.dijkstra (g : Graph Nat) (start : Nat) (D : List Nat) :
    Option (List Nat) :=
  if start ∈ D then some [start]
  else
    match go g D (dijkstraFuel g) ⟨[(0, start)], [(start, 0)], []⟩ start with
    | none => none
    | some (cur, st) =>
      match aget st.prev cur with
      | none => none
      | some _ => some (buildPath start st.prev (st.dist.length + 1) cur [cur])

/-- The query loop of `main`: run `dijkstra` on each source in order and
append the result to `paths` only when a path was found (`if path:`). -/
def batchPaths (g : Graph Nat) (srcs : List Nat) (dsts : List Nat) :
    List (List Nat) :=
  srcs.foldl
    (fun paths s =>
      match g.dijkstra s dsts with
      | some p => paths ++ [p]
      | none => paths)
    []

/-! ## Proof-side measure and invariant for the search loop -/

/-- Every vertex that can ever acquire a recorded distance: the start
vertex and every member of an adjacency list. -/
def Dom (g : Graph Nat) (s : Nat) : List Nat :=
  (s :: (g.adj.map Prod.snd).flatten).dedup

/-- Sum of all recorded distances. -/
def distSum (st : DState) : Nat := (st.dist.map Prod.snd).sum

/-- Termination measure of the `while` loop: strictly decreases at every
iteration. -/
def mu (g : Graph Nat) (s : Nat) (st : DState) : Nat :=
  (totalAdj g + 3) * ((Dom g s).length - st.dist.length) + distSum st + st.heap.length

/-- Loop invariant of `Graph.dijkstra`'s search.  `ex` is `some v` right
after `v` has been popped but before (or instead of) relaxing its
neighbors; the `disj` and `hdest` fields are then not required at `v`. -/
structure DInv (g : Graph Nat) (s : Nat) (D : List Nat) (ex : Option Nat)
    (st : DState) : Prop where
  start0 : aget st.dist s = some 0
  heapLB : ∀ k n, (k, n) ∈ st.heap → ∃ d, aget st.dist n = some d ∧ d ≤ k
  sound : ∀ n d, aget st.dist n = some d → reachIn g s d n
  disj : ∀ n d, aget st.dist n = some d → some n ≠ ex →
    (d, n) ∈ st.heap ∨ ∀ w ∈ g.nbrs n, ∃ dw, aget st.dist w = some dw ∧ dw ≤ d + 1
  hdest : ∀ v ∈ D, some v ≠ ex → ∀ d, aget st.dist v = some d → (d, v) ∈ st.heap
  prevAdj : ∀ n c, aget st.prev n = some c →
    n ∈ g.nbrs c ∧ ∃ dn dc, aget st.dist n = some dn ∧ aget st.dist c = some dc ∧
      dc + 1 ≤ dn
  prevDom : ∀ n, n ≠ s → ((aget st.dist n).isSome ↔ (aget st.prev n).isSome)
  prevStart : aget st.prev s = none
  distDom : ∀ n d, aget st.dist n = some d → n ∈ Dom g s
  distNodup : (st.dist.map Prod.fst).Nodup
  prevNodup : (st.prev.map Prod.fst).Nodup
  count : ∀ n d, aget st.dist n = some d → d < st.dist.length

/-- What one burst of relaxations (the inner `for neighbor in …` loop,
or a prefix of it) guarantees, going from state `st` to state `st'`
while `v` (the popped node, recorded distance `dv`) is the current node
and `l` is the list of neighbors processed. -/
structure StepFacts (g : Graph Nat) (s : Nat) (D : List Nat) (v : Nat) (dv : Nat)
    (l : List Nat) (st st' : DState) : Prop where
  inv : DInv g s D (some v) st'
  curStable : aget st'.dist v = some dv
  muLe : mu g s st' ≤ mu g s st
  heapMono : ∀ e ∈ st.heap, e ∈ st'.heap
  distMono : ∀ w dw, aget st.dist w = some dw →
    ∃ dw', aget st'.dist w = some dw' ∧ dw' ≤ dw
  relaxed : ∀ n ∈ l, ∃ dn, aget st'.dist n = some dn ∧ dn ≤ dv + 1
  prevMono : ∀ w, (aget st.prev w).isSome → (aget st'.prev w).isSome
  heapOrigin : ∀ e ∈ st'.heap, e ∈ st.heap ∨ (e.2 ∈ l ∧ e.2 ≠ s)
  freshPush : ∀ n ∈ l, aget st.dist n = none → ∃ k, (k, n) ∈ st'.heap
  distNew : ∀ w, aget st.dist w = none → aget st'.dist w = none ∨ w ∈ l

/-! # Theorems -/

/-! ## Association-list laws -/

@[simp] theorem aget_nil (k : V) : aget ([] : List (V × A)) k = none := rfl

theorem aget_cons (k k' : V) (v : A) (t : List (V × A)) :
    aget ((k', v) :: t) k = if k = k' then some v else aget t k := rfl

@[simp] theorem aget_aset_self (m : List (V × A)) (k : V) (v : A) :
    aget (aset m k v) k = some v := by
  induction m with
  | nil => simp [aget, aset]
  | cons p t ih =>
    obtain ⟨k', v'⟩ := p
    by_cases h : k = k' <;> simp [aget, aset, h, ih]

@[simp] theorem aget_aset_ne (m : List (V × A)) (k k' : V) (v : A) (h : k' ≠ k) :
    aget (aset m k v) k' = aget m k' := by
  induction m with
  | nil => simp [aget, aset, h]
  | cons p t ih =>
    obtain ⟨k'', v''⟩ := p
    by_cases h2 : k = k''
    · subst h2
      simp [aget, aset, h]
    · by_cases h3 : k' = k'' <;> simp [aget, aset, h2, h3, ih]

theorem aget_mem {m : List (V × A)} {k : V} {v : A} (h : aget m k = some v) :
    (k, v) ∈ m := by
  induction m with
  | nil => simp [aget] at h
  | cons p t ih =>
    obtain ⟨k', v'⟩ := p
    by_cases h2 : k = k'
    · subst h2
      simp [aget] at h
      simp [h]
    · simp [aget, h2] at h
      exact List.mem_cons_of_mem _ (ih h)

theorem mem_aset {m : List (V × A)} {k : V} {v : A} {p : V × A}
    (h : p ∈ aset m k v) : p ∈ m ∨ p = (k, v) := by
  induction m with
  | nil => simp [aset] at h; simp [h]
  | cons q t ih =>
    obtain ⟨k', v'⟩ := q
    by_cases h2 : k = k'
    · subst h2
      simp [aset] at h
      rcases h with h | h
      · right; simp [h]
      · left; exact List.mem_cons_of_mem _ h
    · simp [aset, h2] at h
      rcases h with h | h
      · left; simp [h]
      · rcases ih h with h3 | h3
        · left; exact List.mem_cons_of_mem _ h3
        · right; exact h3

theorem length_aset (m : List (V × A)) (k : V) (v : A) :
    (aset m k v).length = if (aget m k).isSome then m.length else m.length + 1 := by
  induction m with
  | nil => simp [aset, aget]
  | cons p t ih =>
    obtain ⟨k', v'⟩ := p
    by_cases h : k = k'
    · subst h
      simp [aset, aget]
    · simp [aset, aget, h, ih]
      split <;> simp

theorem keys_aset (m : List (V × A)) (k : V) (v : A) :
    (aset m k v).map Prod.fst =
      if (aget m k).isSome then m.map Prod.fst else m.map Prod.fst ++ [k] := by
  induction m with
  | nil => simp [aset, aget]
  | cons p t ih =>
    obtain ⟨k', v'⟩ := p
    by_cases h : k = k'
    · subst h
      simp [aset, aget]
    · simp [aset, aget, h, ih]
      split <;> simp

theorem aget_eq_none_iff {m : List (V × A)} {k : V} :
    aget m k = none ↔ k ∉ m.map Prod.fst := by
  induction m with
  | nil => simp
  | cons p t ih =>
    obtain ⟨k', v'⟩ := p
    by_cases h : k = k' <;> simp [aget, h, ih]

theorem aget_isSome_iff {m : List (V × A)} {k : V} :
    (aget m k).isSome ↔ k ∈ m.map Prod.fst := by
  cases h : aget m k with
  | none => simp [aget_eq_none_iff.mp h]
  | some v =>
    simp only [Option.isSome_some, true_iff]
    exact List.mem_map.mpr ⟨(k, v), aget_mem h, rfl⟩

/-! ## Graph construction laws -/

theorem aget_append_of_none {m : List (V × A)} {w : V} (h : aget m w = none)
    (m' : List (V × A)) : aget (m ++ m') w = aget m' w := by
  induction m with
  | nil => simp
  | cons p t ih =>
    obtain ⟨k, v⟩ := p
    by_cases h2 : w = k
    · simp [aget, h2] at h
    · simp [aget, h2] at h ⊢
      exact ih h

theorem aget_append_of_some {m : List (V × A)} {w : V} {v : A} (h : aget m w = some v)
    (m' : List (V × A)) : aget (m ++ m') w = some v := by
  induction m with
  | nil => simp [aget] at h
  | cons p t ih =>
    obtain ⟨k, v'⟩ := p
    by_cases h2 : w = k
    · simp [aget, h2] at h ⊢
      exact h
    · simp [aget, h2] at h ⊢
      exact ih h

theorem aget_ensureKey (m : List (V × List V)) (k w : V) :
    aget (ensureKey m k) w =
      if w = k then some ((aget m k).getD []) else aget m w := by
  unfold ensureKey
  by_cases h : w = k
  · subst h
    cases h2 : aget m w with
    | none => simp [h2, aget_append_of_none h2, aget]
    | some l => simp [h2, aget_append_of_some h2]
  · cases h2 : aget m k with
    | none =>
      simp only [h2, Option.isSome_none, Bool.false_eq_true, if_false, if_neg h]
      cases h3 : aget m w with
      | none => rw [aget_append_of_none h3]; simp [aget, h]
      | some l => rw [aget_append_of_some h3]
    | some l => simp [h2, h]

theorem appendAdj_cons (k' : V) (l : List V) (t : List (V × List V)) (k x : V) :
    appendAdj ((k', l) :: t) k x =
      (k', if k' = k then l ++ [x] else l) :: appendAdj t k x := by
  unfold appendAdj
  simp only [List.map_cons]
  congr 1
  by_cases h : k' = k <;> simp [h]

theorem aget_appendAdj (m : List (V × List V)) (k x w : V) :
    aget (appendAdj m k x) w =
      if w = k then (aget m w).map (fun l => l ++ [x]) else aget m w := by
  induction m with
  | nil => simp [appendAdj, aget]
  | cons p t ih =>
    obtain ⟨k', l⟩ := p
    rw [appendAdj_cons]
    by_cases h2 : w = k'
    · subst h2
      by_cases h : w = k <;> simp [aget_cons, h, ih]
    · by_cases h : w = k
      · subst h
        simp [aget_cons, h2, ih]
      · simp [aget_cons, h2, h, ih]

/-- Membership characterization of `add_edge`: the new graph records exactly
the old adjacencies plus `v` among `u`'s neighbors and `u` among `v`'s. -/
theorem mem_nbrs_addEdge (g : Graph V) (u v w x : V) :
    x ∈ (g.addEdge u v).nbrs w ↔
      x ∈ g.nbrs w ∨ (w = u ∧ x = v) ∨ (w = v ∧ x = u) := by
  unfold Graph.addEdge Graph.nbrs
  simp only [aget_appendAdj, aget_ensureKey]
  by_cases hwv : w = v <;> by_cases hwu : w = u
  · subst hwv
    rw [← hwu] at *
    cases h : aget g.adj w <;> simp [h, hwu.symm]
  · subst hwv
    simp only [if_pos rfl, if_neg hwu]
    cases h : aget g.adj w <;> simp [h, hwu]
  · subst hwu
    simp only [if_pos rfl, if_neg hwv]
    cases h : aget g.adj w <;> simp [h, hwv]
  · simp only [if_neg hwv, if_neg hwu]
    simp [hwv, hwu]

theorem keys_appendAdj (m : List (V × List V)) (k x : V) :
    (appendAdj m k x).map Prod.fst = m.map Prod.fst := by
  induction m with
  | nil => simp [appendAdj]
  | cons p t ih =>
    obtain ⟨k', l⟩ := p
    by_cases h : k' = k <;> simp [appendAdj, h] at ih ⊢ <;> exact ih

theorem mem_keys_iff_aget {g : Graph V} {w : V} :
    w ∈ g.keys ↔ (aget g.adj w).isSome := by
  unfold Graph.keys
  exact aget_isSome_iff.symm

theorem keys_addEdge (g : Graph V) (u v w : V) :
    w ∈ (g.addEdge u v).keys ↔ w ∈ g.keys ∨ w = u ∨ w = v := by
  rw [mem_keys_iff_aget, mem_keys_iff_aget]
  show (aget (appendAdj (ensureKey (appendAdj (ensureKey g.adj u) u v) v) v u) w).isSome ↔ _
  simp only [aget_appendAdj, aget_ensureKey]
  by_cases hwv : w = v
  · subst hwv
    simp
  · by_cases hwu : w = u
    · subst hwu
      simp [hwv]
    · simp [hwv, hwu]

theorem mem_nbrs_key {g : Graph V} {w x : V} (h : x ∈ g.nbrs w) : w ∈ g.keys := by
  rw [mem_keys_iff_aget]
  cases h2 : aget g.adj w with
  | none => simp [Graph.nbrs, h2] at h
  | some l => simp

/-! ## Symmetry (claim C6) -/

theorem sym_addEdge {g : Graph V} (h : g.Sym) (u v : V) : (g.addEdge u v).Sym := by
  intro a b
  rw [mem_nbrs_addEdge, mem_nbrs_addEdge, h a b]
  tauto

theorem sym_empty : (Graph.empty : Graph V).Sym := by
  intro a b
  simp [Graph.nbrs, Graph.empty, aget]

theorem sym_foldl (es : List (V × V)) :
    ∀ g : Graph V, g.Sym → (es.foldl (fun g e => g.addEdge e.1 e.2) g).Sym := by
  induction es with
  | nil => intro g hg; simpa using hg
  | cons e t ih =>
    intro g hg
    exact ih _ (sym_addEdge hg e.1 e.2)

/-! ## Reachability laws -/

theorem reachIn_mono {g : Graph V} {s : V} {n m : Nat} {z : V}
    (hnm : n ≤ m) (h : reachIn g s n z) : reachIn g s m z := by
  induction m with
  | zero => exact (Nat.le_zero.mp hnm) ▸ h
  | succ m ih =>
    rcases Nat.lt_or_ge n (m + 1) with h2 | h2
    · exact Or.inl (ih (Nat.lt_succ_iff.mp h2))
    · have : n = m + 1 := Nat.le_antisymm hnm h2
      exact this ▸ h

theorem reachIn_self (g : Graph V) (s : V) (n : Nat) : reachIn g s n s :=
  reachIn_mono (Nat.zero_le n) rfl

theorem reachIn_step {g : Graph V} {s u z : V} {n : Nat}
    (h : reachIn g s n u) (hz : z ∈ g.nbrs u) : reachIn g s (n + 1) z :=
  Or.inr ⟨u, mem_nbrs_key hz, h, hz⟩

/-- Reachability only looks at key-membership and neighbor-membership. -/
theorem reachIn_congr {g g' : Graph V}
    (hk : ∀ w, w ∈ g'.keys ↔ w ∈ g.keys)
    (hn : ∀ w x, x ∈ g'.nbrs w ↔ x ∈ g.nbrs w) (s : V) :
    ∀ (n : Nat) (z : V), reachIn g' s n z ↔ reachIn g s n z := by
  intro n
  induction n with
  | zero => intro z; exact Iff.rfl
  | succ n ih =>
    intro z
    show (reachIn g' s n z ∨ _) ↔ (reachIn g s n z ∨ _)
    exact or_congr (ih z)
      (exists_congr fun u => and_congr (hk u) (and_congr (ih u) (hn u z)))

/-! ## Duplicate edges (claim C5) -/

theorem mem_nbrs_addEdge_dup {g : Graph V} {u v : V}
    (hv : v ∈ g.nbrs u) (hu : u ∈ g.nbrs v) (w x : V) :
    x ∈ (g.addEdge u v).nbrs w ↔ x ∈ g.nbrs w := by
  rw [mem_nbrs_addEdge]
  constructor
  · rintro (h | ⟨rfl, rfl⟩ | ⟨rfl, rfl⟩)
    · exact h
    · exact hv
    · exact hu
  · exact Or.inl

theorem keys_addEdge_dup {g : Graph V} {u v : V}
    (hv : v ∈ g.nbrs u) (hu : u ∈ g.nbrs v) (w : V) :
    w ∈ (g.addEdge u v).keys ↔ w ∈ g.keys := by
  rw [keys_addEdge]
  constructor
  · rintro (h | rfl | rfl)
    · exact h
    · exact mem_nbrs_key hv
    · exact mem_nbrs_key hu
  · exact Or.inl

/-- C5: with the edge already present in both directions, re-inserting it
changes neither key membership nor neighbor membership, hence no
reachability predicate and no shortest distance. -/
theorem reachIn_addEdge_dup {g : Graph V} {u v : V}
    (hv : v ∈ g.nbrs u) (hu : u ∈ g.nbrs v) (s : V) (n : Nat) (z : V) :
    reachIn (g.addEdge u v) s n z ↔ reachIn g s n z :=
  reachIn_congr (keys_addEdge_dup hv hu) (mem_nbrs_addEdge_dup hv hu) s n z

/-! ## Clique expansion of one link record (claim C3) -/

theorem addEdge_hasEdge_self (g : Graph V) (u v : V) : (g.addEdge u v).hasEdge u v := by
  constructor <;> rw [mem_nbrs_addEdge] <;> tauto

theorem hasEdge_addEdge_mono {g : Graph V} {a b : V} (h : g.hasEdge a b) (u v : V) :
    (g.addEdge u v).hasEdge a b :=
  ⟨(mem_nbrs_addEdge g u v a b).mpr (Or.inl h.1),
   (mem_nbrs_addEdge g u v b a).mpr (Or.inl h.2)⟩

theorem hasEdge_foldl_mono {l : List (V × V)} {g : Graph V} {a b : V}
    (h : g.hasEdge a b) :
    (l.foldl (fun g' p => g'.addEdge p.1 p.2) g).hasEdge a b := by
  induction l generalizing g with
  | nil => exact h
  | cons p t ih => exact ih (hasEdge_addEdge_mono h p.1 p.2)

theorem foldl_hasEdge {l : List (V × V)} {a b : V} (h : (a, b) ∈ l) (g : Graph V) :
    (l.foldl (fun g' p => g'.addEdge p.1 p.2) g).hasEdge a b := by
  induction l generalizing g with
  | nil => simp at h
  | cons p t ih =>
    rcases List.mem_cons.mp h with h2 | h2
    · subst h2
      simp only [List.foldl_cons]
      exact hasEdge_foldl_mono (addEdge_hasEdge_self g a b)
    · exact ih h2 _

theorem mem_pairsList {l : List A} {a b : A} (ha : a ∈ l) (hb : b ∈ l)
    (hab : a ≠ b) : (a, b) ∈ pairsList l ∨ (b, a) ∈ pairsList l := by
  induction l with
  | nil => simp at ha
  | cons x t ih =>
    simp only [pairsList, List.mem_append, List.mem_map]
    rcases List.mem_cons.mp ha with rfl | ha2
    · rcases List.mem_cons.mp hb with rfl | hb2
      · exact absurd rfl hab
      · exact Or.inl (Or.inl ⟨b, hb2, rfl⟩)
    · rcases List.mem_cons.mp hb with rfl | hb2
      · exact Or.inr (Or.inl ⟨a, ha2, rfl⟩)
      · rcases ih ha2 hb2 with h | h
        · exact Or.inl (Or.inr h)
        · exact Or.inr (Or.inr h)

theorem mem_foldl_addUnique [DecidableEq A] (l : List A) (acc : List A) (x : A) :
    x ∈ l.foldl addUnique acc ↔ x ∈ acc ∨ x ∈ l := by
  induction l generalizing acc with
  | nil => simp
  | cons y t ih =>
    show x ∈ t.foldl addUnique (addUnique acc y) ↔ _
    rw [ih]
    unfold addUnique
    by_cases h : y ∈ acc
    · simp [h]
      constructor
      · tauto
      · rintro (h2 | rfl | h2) <;> tauto
    · simp [h]
      constructor
      · rintro (h2 | h2) <;> tauto
      · rintro (h2 | rfl | h2) <;> tauto

theorem nodup_foldl_addUnique [DecidableEq A] (l : List A) (acc : List A)
    (h : acc.Nodup) : (l.foldl addUnique acc).Nodup := by
  induction l generalizing acc with
  | nil => exact h
  | cons y t ih =>
    refine ih _ ?_
    unfold addUnique
    by_cases h2 : y ∈ acc
    · simpa [h2] using h
    · simp only [h2, if_false]
      exact h.append (List.nodup_singleton y)
        (fun _ ha hy => h2 ((List.mem_singleton.mp hy) ▸ ha))

/-- The `known_interfaces` set of a record is exactly the union of the
index entries of its tokens' node ids. -/
theorem mem_knownInterfaces (idx : List (List Char × List (List Char)))
    (tokens : List (List Char)) (x : List Char) :
    x ∈ knownInterfaces idx tokens ↔
      ∃ tok ∈ tokens, x ∈ (aget idx (stripTok tok)).getD [] := by
  unfold knownInterfaces
  suffices h : ∀ acc, x ∈ tokens.foldl
      (fun acc tok => ((aget idx (stripTok tok)).getD []).foldl addUnique acc) acc ↔
      x ∈ acc ∨ ∃ tok ∈ tokens, x ∈ (aget idx (stripTok tok)).getD [] by
    simpa using h []
  induction tokens with
  | nil => simp
  | cons tok t ih =>
    intro acc
    show x ∈ t.foldl _ (((aget idx (stripTok tok)).getD []).foldl addUnique acc) ↔ _
    rw [ih, mem_foldl_addUnique]
    simp only [List.mem_cons]
    constructor
    · rintro ((h | h) | ⟨tk, htk, hx⟩)
      · exact Or.inl h
      · exact Or.inr ⟨tok, Or.inl rfl, h⟩
      · exact Or.inr ⟨tk, Or.inr htk, hx⟩
    · rintro (h | ⟨tk, rfl | htk, hx⟩)
      · exact Or.inl (Or.inl h)
      · exact Or.inl (Or.inr hx)
      · exact Or.inr ⟨tk, htk, hx⟩

/-- `known_interfaces` is duplicate-free: its length is the number of
distinct IPs (the claim's `k`). -/
theorem knownInterfaces_nodup (idx : List (List Char × List (List Char)))
    (tokens : List (List Char)) : (knownInterfaces idx tokens).Nodup := by
  unfold knownInterfaces
  suffices h : ∀ acc : List (List Char), acc.Nodup → ∀ ts : List (List Char),
      (ts.foldl (fun acc tok => ((aget idx (stripTok tok)).getD []).foldl addUnique acc) acc).Nodup by
    exact h [] (by simp) tokens
  intro acc hacc ts
  induction ts generalizing acc with
  | nil => exact hacc
  | cons tok t ih => exact ih _ (nodup_foldl_addUnique _ _ hacc)

/-! ## Line-format laws (claim C7) -/

theorem dropLit_eq_some {lit cs rest : List Char} :
    dropLit lit cs = some rest ↔ cs = lit ++ rest := by
  induction lit generalizing cs with
  | nil => simp [dropLit]
  | cons p ps ih =>
    cases cs with
    | nil => simp [dropLit]
    | cons c t =>
      by_cases h : c = p
      · subst h
        simp [dropLit, ih]
      · simp [dropLit, h]

theorem takeWhile_append_all {p : Char → Bool} {l₁ : List Char}
    (h : ∀ c ∈ l₁, p c) (l₂ : List Char) :
    (l₁ ++ l₂).takeWhile p = l₁ ++ l₂.takeWhile p := by
  induction l₁ with
  | nil => simp
  | cons c t ih =>
    have hc := h c (by simp)
    simp [List.takeWhile_cons, hc, ih (fun c' hc' => h c' (by simp [hc']))]

theorem takeWhile_of_decomp {p : Char → Bool} {ds t : List Char} {x : Char}
    (hds : ∀ c ∈ ds, p c) (hx : p x = false) :
    (ds ++ x :: t).takeWhile p = ds := by
  rw [takeWhile_append_all hds]
  simp [List.takeWhile_cons, hx]

theorem takeWhile_decomp (p : Char → Bool) (l : List Char) :
    l = l.takeWhile p ++ l.drop (l.takeWhile p).length := by
  have h := List.prefix_iff_eq_take.mp
    (show l.takeWhile p <+: l from List.takeWhile_prefix p)
  conv_lhs => rw [← List.take_append_drop (l.takeWhile p).length l]
  rw [← h]

/-- `parseLinkLine` on a line decomposed as `link L<digits>:<tail>`. -/
theorem parseLinkLine_decomp (ds tail : List Char) (hds : ds ≠ [])
    (hdig : ∀ c ∈ ds, c.isDigit) :
    parseLinkLine (linkLit ++ (ds ++ ':' :: tail)) =
      if tail.head? = some ' ' ∧ 2 ≤ (tail.takeWhile isClsChar).length
      then .tokens ((splitWs (tail.takeWhile isClsChar)).map stripTok)
      else .bad := by
  have h0 : ¬ ((linkLit ++ (ds ++ ':' :: tail)).head? = some '#') := by
    simp [linkLit]
  have h1 : dropLit linkLit (linkLit ++ (ds ++ ':' :: tail)) =
      some (ds ++ ':' :: tail) := dropLit_eq_some.mpr rfl
  have h2 : (ds ++ ':' :: tail).takeWhile Char.isDigit = ds :=
    takeWhile_of_decomp hdig (by decide)
  have h3 : (ds ++ ':' :: tail).drop ds.length = ':' :: tail := List.drop_left ds _
  rw [parseLinkLine, if_neg h0]
  simp only [h1, h2, h3, hds, if_neg hds, if_false]

/-- A `LinkShape` decomposition normalises to: the literal, the digit run,
`':'`, then a tail that starts with a space and whose maximal class run
has at least two characters. -/
theorem shape_cond_iff (cs : List Char) :
    LinkShape cs ↔ ∃ ds tail, cs = linkLit ++ (ds ++ ':' :: tail) ∧ ds ≠ [] ∧
      (∀ c ∈ ds, c.isDigit) ∧ tail.head? = some ' ' ∧
      2 ≤ (tail.takeWhile isClsChar).length := by
  constructor
  · rintro ⟨ds, sp, run, rest, hcs, hds, hdig, hsp, hspc, hrun, hrunc⟩
    refine ⟨ds, sp ++ run ++ rest, ?_, hds, hdig, ?_, ?_⟩
    · rw [hcs]
      simp [List.append_assoc]
    · obtain ⟨c, sp', rfl⟩ : ∃ c sp', sp = c :: sp' := by
        cases sp with
        | nil => exact absurd rfl hsp
        | cons c sp' => exact ⟨c, sp', rfl⟩
      have hc : c = ' ' := hspc c (by simp)
      subst hc
      simp
    · have hall : ∀ c ∈ sp ++ run, isClsChar c := by
        intro c hc
        rcases List.mem_append.mp hc with h | h
        · rw [hspc c h]; decide
        · exact hrunc c h
      rw [takeWhile_append_all hall rest]
      have h1 : 1 ≤ sp.length := List.length_pos.mpr hsp
      have h2 : 1 ≤ run.length := List.length_pos.mpr hrun
      simp only [List.length_append]
      omega
  · rintro ⟨ds, tail, rfl, hds, hdig, hh, hlen⟩
    obtain ⟨t, rfl⟩ : ∃ t, tail = ' ' :: t := by
      cases tail with
      | nil => simp at hh
      | cons c t =>
        simp only [List.head?_cons, Option.some.injEq] at hh
        exact ⟨t, by rw [hh]⟩
    have htw : (' ' :: t).takeWhile isClsChar = ' ' :: t.takeWhile isClsChar := by
      simp [List.takeWhile_cons]
      decide
    refine ⟨ds, [' '], t.takeWhile isClsChar, t.dropWhile isClsChar, ?_, hds, hdig,
      by simp, by simp, ?_, ?_⟩
    · simp [List.takeWhile_append_dropWhile]
    · rw [htw] at hlen
      simp only [List.length_cons] at hlen
      intro hnil
      rw [hnil] at hlen
      simp at hlen
    · intro c hc
      exact List.mem_takeWhile_imp hc

theorem parse_tokens_shape {cs : List Char} {ts : List (List Char)}
    (h : parseLinkLine cs = .tokens ts) : LinkShape cs := by
  by_cases hc : cs.head? = some '#'
  · rw [parseLinkLine, if_pos hc] at h
    exact absurd h (by simp)
  rw [parseLinkLine, if_neg hc] at h
  split at h
  · exact absurd h (by simp)
  · rename_i rest1 hd
    split at h
    · exact absurd h (by simp)
    · rename_i hds
      split at h
      · rename_i rest3 hdrop
        split at h
        · rename_i hcond
          rw [shape_cond_iff]
          refine ⟨rest1.takeWhile Char.isDigit, rest3, ?_, hds, ?_, hcond.1, hcond.2⟩
          · rw [dropLit_eq_some.mp hd]
            congr 1
            conv_lhs => rw [takeWhile_decomp Char.isDigit rest1]
            rw [hdrop]
          · intro c hcm
            exact List.mem_takeWhile_imp hcm
        · exact absurd h (by simp)
      · exact absurd h (by simp)

theorem parse_comment_iff (cs : List Char) :
    parseLinkLine cs = .comment ↔ cs.head? = some '#' := by
  by_cases h : cs.head? = some '#'
  · simp [parseLinkLine, h]
  · rw [parseLinkLine, if_neg h]
    simp only [h, iff_false]
    split
    · simp
    · split
      · simp
      · split
        · split <;> simp
        · simp

theorem anchoredMatch_iff (cs : List Char) :
    AnchoredLinkShape cs ↔ anchoredMatch cs = true := by
  constructor
  · rintro ⟨ds, sp, run, hcs, hds, hdig, hsp, hspc, hrun, hrunc⟩
    have hcs' : cs = linkLit ++ (ds ++ ':' :: (sp ++ run)) := by
      rw [hcs]; simp [List.append_assoc]
    have h1 : dropLit linkLit cs = some (ds ++ ':' :: (sp ++ run)) :=
      dropLit_eq_some.mpr hcs'
    have h2 : (ds ++ ':' :: (sp ++ run)).takeWhile Char.isDigit = ds :=
      takeWhile_of_decomp hdig (by decide)
    have h3 : (ds ++ ':' :: (sp ++ run)).drop ds.length = ':' :: (sp ++ run) :=
      List.drop_left ds _
    obtain ⟨c, sp', rfl⟩ : ∃ c sp', sp = c :: sp' := by
      cases sp with
      | nil => exact absurd rfl hsp
      | cons c sp' => exact ⟨c, sp', rfl⟩
    have hc : c = ' ' := hspc c (by simp)
    subst hc
    simp only [anchoredMatch, h1, h2, h3, hds, if_false, Bool.and_eq_true,
      decide_eq_true_eq, List.all_eq_true]
    refine ⟨⟨by simp, ?_⟩, ?_⟩
    · have : 1 ≤ run.length := List.length_pos.mpr hrun
      simp only [List.cons_append, List.length_cons, List.length_append]
      omega
    · intro c hc
      simp only [List.cons_append, List.mem_cons, List.mem_append] at hc
      rcases hc with rfl | h | h
      · decide
      · rw [hspc c (by simp [h])]
        decide
      · exact hrunc c h
  · intro h
    rw [anchoredMatch] at h
    split at h
    · exact absurd h (by simp)
    · rename_i rest1 hd
      split at h
      · exact absurd h (by simp)
      · rename_i hds
        split at h
        · rename_i tail hdrop
          simp only [Bool.and_eq_true, decide_eq_true_eq, List.all_eq_true] at h
          obtain ⟨⟨hh, hlen⟩, hall⟩ := h
          obtain ⟨t, rfl⟩ : ∃ t, tail = ' ' :: t := by
            cases tail with
            | nil => simp at hh
            | cons c t =>
              simp only [List.head?_cons, Option.some.injEq] at hh
              exact ⟨t, by rw [hh]⟩
          refine ⟨rest1.takeWhile Char.isDigit, [' '], t, ?_, hds, ?_, by simp,
            by simp, ?_, ?_⟩
          · rw [dropLit_eq_some.mp hd, List.append_assoc]
            congr 1
            conv_lhs => rw [takeWhile_decomp Char.isDigit rest1]
            rw [hdrop]
            simp
          · intro c hcm
            exact List.mem_takeWhile_imp hcm
          · intro ht
            subst ht
            simp at hlen
          · intro c hc
            exact hall c (by simp [hc])
        · exact absurd h (by simp)

/-- C7 (amended): comment lines are skipped; a non-comment line is
reported-and-skipped (`bad`) exactly when it fails the code's unanchored
shape `^link L\d+: +([N\d.: ]+)` (trailing characters after the captured
class run are ignored, unlike the spec's `$`-anchored shape); a matching
line yields the space-separated tokens of the maximal class run, each cut
at its first `':'`; skipped lines do not abort the processing of
subsequent lines. -/
theorem claim_C7_line_handling : ∀ cs : List Char,
    (cs.head? = some '#' → parseLinkLine cs = .comment) ∧
    (cs.head? ≠ some '#' → (parseLinkLine cs = .bad ↔ ¬ LinkShape cs)) ∧
    (∀ ds tail, cs = linkLit ++ (ds ++ ':' :: tail) → ds ≠ [] →
      (∀ c ∈ ds, c.isDigit) → tail.head? = some ' ' →
      2 ≤ (tail.takeWhile isClsChar).length →
      parseLinkLine cs = .tokens ((splitWs (tail.takeWhile isClsChar)).map stripTok)) ∧
    (∀ (idx : List (List Char × List (List Char))) (g : Graph (List Char))
        (rest : List (List Char)),
      (parseLinkLine cs = .comment ∨ parseLinkLine cs = .bad) →
        loadLines idx g (cs :: rest) = loadLines idx g rest) := by
  intro cs
  refine ⟨?_, ?_, ?_, ?_⟩
  · intro h
    rw [parseLinkLine, if_pos h]
  · intro hc
    constructor
    · intro hbad hshape
      obtain ⟨ds, tail, rfl, hds, hdig, hh, hlen⟩ := (shape_cond_iff _).mp hshape
      rw [parseLinkLine_decomp ds tail hds hdig, if_pos ⟨hh, hlen⟩] at hbad
      exact absurd hbad (by simp)
    · intro hns
      cases hr : parseLinkLine cs with
      | comment => exact absurd ((parse_comment_iff cs).mp hr) hc
      | bad => rfl
      | tokens ts => exact absurd (parse_tokens_shape hr) hns
  · intro ds tail hcs hds hdig hh hlen
    subst hcs
    rw [parseLinkLine_decomp ds tail hds hdig, if_pos ⟨hh, hlen⟩]
  · intro idx g rest hskip
    rcases hskip with h | h <;> simp [loadLines, h]

/-- C7 counterexample: the line `link L1: N1 x` is accepted by the code
(yielding token `N1`) although it does not match the spec's
`$`-anchored shape. -/
theorem claim_C7_counterexample :
    parseLinkLine ("link L1: N1 x".data) = .tokens [['N', '1']] ∧
      ¬ AnchoredLinkShape ("link L1: N1 x".data) := by
  constructor
  · decide
  · rw [anchoredMatch_iff]
    decide

/-- C7 witness: a well-formed line is parsed into its stripped tokens. -/
theorem claim_C7_witness :
    parseLinkLine ("link L10: N1:1.2.3.4 N25".data) =
      .tokens [['N', '1'], ['N', '2', '5']] := by
  have h := (claim_C7_line_handling ("link L10: N1:1.2.3.4 N25".data)).2.2.1
    ['1', '0'] (" N1:1.2.3.4 N25".data) (by decide) (by decide) (by decide)
    (by decide) (by decide)
  rw [h]
  decide

/-- C3: for one link record, if the union of the index's interfaces over
the record's tokens has at least two distinct IPs then every unordered
pair of them is connected in both directions, and if it has at most one
the record changes the graph not at all. -/
theorem claim_C3_clique (idx : List (List Char × List (List Char)))
    (tokens : List (List Char)) (g : Graph (List Char)) :
    (2 ≤ (knownInterfaces idx tokens).length →
      ∀ a ∈ knownInterfaces idx tokens, ∀ b ∈ knownInterfaces idx tokens, a ≠ b →
        (processLink idx tokens g).hasEdge a b) ∧
    ((knownInterfaces idx tokens).length ≤ 1 → processLink idx tokens g = g) := by
  constructor
  · intro hk a ha b hb hab
    have hk2 : ¬ (knownInterfaces idx tokens).length ≤ 1 := by omega
    show Graph.hasEdge (if (knownInterfaces idx tokens).length ≤ 1 then g
      else (pairsList (knownInterfaces idx tokens)).foldl
        (fun g' p => g'.addEdge p.1 p.2) g) a b
    rw [if_neg hk2]
    rcases mem_pairsList ha hb hab with h | h
    · exact foldl_hasEdge h g
    · exact ⟨(foldl_hasEdge h g).2, (foldl_hasEdge h g).1⟩
  · intro hk
    show (if (knownInterfaces idx tokens).length ≤ 1 then g
      else (pairsList (knownInterfaces idx tokens)).foldl
        (fun g' p => g'.addEdge p.1 p.2) g) = g
    rw [if_pos hk]

/-- C3 witness: a record `N1:9.9.9.9 N2 N9` against an index mapping `N1`
to one IP and `N2` to two IPs (and `N9` unknown) yields three distinct
IPs; the processed graph connects the first and third. -/
theorem claim_C3_witness :
    2 ≤ (knownInterfaces
        [(['N', '1'], [['a']]), (['N', '2'], [['b'], ['c']])]
        [['N', '1', ':', '9'], ['N', '2'], ['N', '9']]).length ∧
      (processLink
        [(['N', '1'], [['a']]), (['N', '2'], [['b'], ['c']])]
        [['N', '1', ':', '9'], ['N', '2'], ['N', '9']]
        Graph.empty).hasEdge ['a'] ['c'] :=
  ⟨by decide,
    (claim_C3_clique _ _ _).1 (by decide) ['a'] (by decide) ['c'] (by decide)
      (by decide)⟩

/-- C5: re-inserting an edge that is already recorded in both directions
leaves the shortest-path distance between every pair of vertices
unchanged. -/
theorem claim_C5_duplicate_edge (g : Graph V) (u v : V)
    (hv : v ∈ g.nbrs u) (hu : u ∈ g.nbrs v) (a b : V) (n : Nat) :
    shortestDist (g.addEdge u v) a b n ↔ shortestDist g a b n := by
  unfold shortestDist
  simp only [reachIn_addEdge_dup hv hu]

/-- C5 witness at the graph with the single edge `1 – 2`. -/
theorem claim_C5_witness :
    (2 ∈ (buildG [(1, 2)] : Graph Nat).nbrs 1) ∧
      (1 ∈ (buildG [(1, 2)] : Graph Nat).nbrs 2) ∧
      (shortestDist ((buildG [(1, 2)] : Graph Nat).addEdge 1 2) 1 2 1 ↔
        shortestDist (buildG [(1, 2)] : Graph Nat) 1 2 1) :=
  ⟨by decide, by decide,
    claim_C5_duplicate_edge (buildG [(1, 2)]) 1 2 (by decide) (by decide) 1 2 1⟩

/-- C6: a single `add_edge` call preserves adjacency symmetry, and every
graph built by a sequence of `add_edge` calls is symmetric. -/
theorem claim_C6_symmetry :
    (∀ (g : Graph V) (u v : V), g.Sym → (g.addEdge u v).Sym) ∧
      (∀ es : List (V × V), (buildG es : Graph V).Sym) :=
  ⟨fun _ u v h => sym_addEdge h u v, fun es => sym_foldl es Graph.empty sym_empty⟩

/-- C6 witness: symmetry after one `add_edge` on the empty graph. -/
theorem claim_C6_witness : ((Graph.empty : Graph Nat).addEdge 1 2).Sym :=
  (@claim_C6_symmetry Nat _).1 Graph.empty 1 2 sym_empty

/-! ## Priority-queue laws -/

theorem pairLe_fst {a b : Nat × Nat} (h : pairLe a b) : a.1 ≤ b.1 := by
  rcases h with h | ⟨h, _⟩
  · exact Nat.le_of_lt h
  · exact Nat.le_of_eq h

theorem pairLe_of_not {a b : Nat × Nat} (h : ¬ pairLe a b) : pairLe b a := by
  unfold pairLe at *
  omega

theorem popMin_cons_none {x : Nat × Nat} {t : List (Nat × Nat)}
    (hp : popMin t = none) : popMin (x :: t) = some (x, []) := by
  rw [popMin, hp]

theorem popMin_cons_some {x m : Nat × Nat} {t r : List (Nat × Nat)}
    (hp : popMin t = some (m, r)) :
    popMin (x :: t) = if pairLe x m then some (x, t) else some (m, x :: r) := by
  rw [popMin, hp]

theorem popMin_eq_none_iff {l : List (Nat × Nat)} : popMin l = none ↔ l = [] := by
  cases l with
  | nil => simp [popMin]
  | cons x t =>
    simp only [List.cons_ne_nil, iff_false]
    intro h
    cases hp : popMin t with
    | none => rw [popMin_cons_none hp] at h; simp at h
    | some p =>
      obtain ⟨m, r⟩ := p
      rw [popMin_cons_some hp] at h
      by_cases h2 : pairLe x m
      · rw [if_pos h2] at h; simp at h
      · rw [if_neg h2] at h; simp at h

theorem popMin_mem {l : List (Nat × Nat)} {m : Nat × Nat} {r : List (Nat × Nat)}
    (h : popMin l = some (m, r)) : m ∈ l := by
  induction l generalizing m r with
  | nil => simp [popMin] at h
  | cons x t ih =>
    cases hp : popMin t with
    | none =>
      rw [popMin_cons_none hp] at h
      simp at h
      simp [h.1]
    | some p =>
      obtain ⟨m', r'⟩ := p
      rw [popMin_cons_some hp] at h
      by_cases h2 : pairLe x m'
      · rw [if_pos h2] at h
        simp at h
        simp [h.1]
      · rw [if_neg h2] at h
        simp at h
        exact List.mem_cons_of_mem _ (h.1 ▸ ih hp)

theorem popMin_le {l : List (Nat × Nat)} {m : Nat × Nat} {r : List (Nat × Nat)}
    (h : popMin l = some (m, r)) : ∀ x ∈ l, m.1 ≤ x.1 := by
  induction l generalizing m r with
  | nil => simp [popMin] at h
  | cons x t ih =>
    cases hp : popMin t with
    | none =>
      rw [popMin_cons_none hp] at h
      simp at h
      obtain ⟨rfl, rfl⟩ := h
      intro y hy
      rcases List.mem_cons.mp hy with rfl | hy2
      · exact Nat.le_refl _
      · rw [popMin_eq_none_iff.mp hp] at hy2
        simp at hy2
    | some p =>
      obtain ⟨m', r'⟩ := p
      rw [popMin_cons_some hp] at h
      by_cases h2 : pairLe x m'
      · rw [if_pos h2] at h
        simp at h
        obtain ⟨rfl, rfl⟩ := h
        intro y hy
        rcases List.mem_cons.mp hy with rfl | hy2
        · exact Nat.le_refl _
        · exact Nat.le_trans (pairLe_fst h2) (ih hp y hy2)
      · rw [if_neg h2] at h
        simp at h
        obtain ⟨rfl, rfl⟩ := h
        intro y hy
        rcases List.mem_cons.mp hy with rfl | hy2
        · exact pairLe_fst (pairLe_of_not h2)
        · exact ih hp y hy2

theorem popMin_rest_mem {l : List (Nat × Nat)} {m : Nat × Nat} {r : List (Nat × Nat)}
    (h : popMin l = some (m, r)) : ∀ x ∈ r, x ∈ l := by
  induction l generalizing m r with
  | nil => simp [popMin] at h
  | cons x t ih =>
    cases hp : popMin t with
    | none =>
      rw [popMin_cons_none hp] at h
      simp at h
      obtain ⟨rfl, rfl⟩ := h
      simp
    | some p =>
      obtain ⟨m', r'⟩ := p
      rw [popMin_cons_some hp] at h
      by_cases h2 : pairLe x m'
      · rw [if_pos h2] at h
        simp at h
        obtain ⟨rfl, rfl⟩ := h
        intro y hy
        exact List.mem_cons_of_mem _ hy
      · rw [if_neg h2] at h
        simp at h
        obtain ⟨rfl, rfl⟩ := h
        intro y hy
        rcases List.mem_cons.mp hy with rfl | hy2
        · simp
        · exact List.mem_cons_of_mem _ (ih hp y hy2)

theorem popMin_cases {l : List (Nat × Nat)} {m : Nat × Nat} {r : List (Nat × Nat)}
    (h : popMin l = some (m, r)) : ∀ x ∈ l, x = m ∨ x ∈ r := by
  induction l generalizing m r with
  | nil => simp [popMin] at h
  | cons x t ih =>
    cases hp : popMin t with
    | none =>
      rw [popMin_cons_none hp] at h
      simp at h
      obtain ⟨rfl, rfl⟩ := h
      intro y hy
      rcases List.mem_cons.mp hy with rfl | hy2
      · exact Or.inl rfl
      · rw [popMin_eq_none_iff.mp hp] at hy2
        simp at hy2
    | some p =>
      obtain ⟨m', r'⟩ := p
      rw [popMin_cons_some hp] at h
      by_cases h2 : pairLe x m'
      · rw [if_pos h2] at h
        simp at h
        obtain ⟨rfl, rfl⟩ := h
        intro y hy
        rcases List.mem_cons.mp hy with rfl | hy2
        · exact Or.inl rfl
        · exact Or.inr hy2
      · rw [if_neg h2] at h
        simp at h
        obtain ⟨rfl, rfl⟩ := h
        intro y hy
        rcases List.mem_cons.mp hy with rfl | hy2
        · exact Or.inr (List.mem_cons_self _ _)
        · rcases ih hp y hy2 with h3 | h3
          · exact Or.inl h3
          · exact Or.inr (List.mem_cons_of_mem _ h3)

theorem popMin_length {l : List (Nat × Nat)} {m : Nat × Nat} {r : List (Nat × Nat)}
    (h : popMin l = some (m, r)) : l.length = r.length + 1 := by
  induction l generalizing m r with
  | nil => simp [popMin] at h
  | cons x t ih =>
    cases hp : popMin t with
    | none =>
      rw [popMin_cons_none hp] at h
      simp at h
      obtain ⟨rfl, rfl⟩ := h
      simp [popMin_eq_none_iff.mp hp]
    | some p =>
      obtain ⟨m', r'⟩ := p
      rw [popMin_cons_some hp] at h
      by_cases h2 : pairLe x m'
      · rw [if_pos h2] at h
        simp at h
        obtain ⟨rfl, rfl⟩ := h
        simp
      · rw [if_neg h2] at h
        simp at h
        obtain ⟨rfl, rfl⟩ := h
        simp [ih hp]

/-! ## Measure and domain laws -/

theorem mem_nbrs_dom {g : Graph Nat} {s c x : Nat} (h : x ∈ g.nbrs c) :
    x ∈ Dom g s := by
  unfold Graph.nbrs at h
  cases h2 : aget g.adj c with
  | none => simp [h2] at h
  | some l =>
    rw [h2] at h
    simp only [Option.getD_some] at h
    unfold Dom
    rw [List.mem_dedup]
    refine List.mem_cons_of_mem _ ?_
    rw [List.mem_flatten]
    exact ⟨l, List.mem_map.mpr ⟨(c, l), aget_mem h2, rfl⟩, h⟩

theorem start_mem_dom (g : Graph Nat) (s : Nat) : s ∈ Dom g s := by
  unfold Dom
  rw [List.mem_dedup]
  simp

theorem dom_len_le (g : Graph Nat) (s : Nat) :
    (Dom g s).length ≤ totalAdj g + 1 := by
  unfold Dom totalAdj
  calc ((s :: (g.adj.map Prod.snd).flatten).dedup).length
      ≤ (s :: (g.adj.map Prod.snd).flatten).length := (s :: _).dedup_sublist.length_le
    _ = (g.adj.map Prod.snd).flatten.length + 1 := by simp
    _ = (g.adj.map (fun p => p.2.length)).sum + 1 := by
        rw [List.length_flatten]
        simp [Function.comp_def]

theorem dist_len_le_dom {g : Graph Nat} {s : Nat} {D : List Nat} {ex : Option Nat}
    {st : DState} (inv : DInv g s D ex st) : st.dist.length ≤ (Dom g s).length := by
  have hsub : st.dist.map Prod.fst ⊆ Dom g s := by
    intro k hk
    have hsome : (aget st.dist k).isSome := aget_isSome_iff.mpr hk
    obtain ⟨d, hd⟩ := Option.isSome_iff_exists.mp hsome
    exact inv.distDom k d hd
  have := (inv.distNodup.subperm hsub).length_le
  simpa using this

theorem distSum_aset_none {m : List (Nat × Nat)} {n : Nat} (h : aget m n = none)
    (d : Nat) : ((aset m n d).map Prod.snd).sum = (m.map Prod.snd).sum + d := by
  induction m with
  | nil => simp [aset]
  | cons p t ih =>
    obtain ⟨k, v⟩ := p
    by_cases h2 : n = k
    · simp [aget, h2] at h
    · simp [aget, h2] at h
      simp [aset, h2, ih h]
      omega

theorem distSum_aset_some {m : List (Nat × Nat)} {n dn : Nat}
    (h : aget m n = some dn) (d : Nat) :
    ((aset m n d).map Prod.snd).sum + dn = (m.map Prod.snd).sum + d := by
  induction m with
  | nil => simp [aget] at h
  | cons p t ih =>
    obtain ⟨k, v⟩ := p
    by_cases h2 : n = k
    · subst h2
      simp [aget] at h
      subst h
      simp [aset]
      omega
    · simp [aget, h2] at h
      simp [aset, h2]
      have := ih h
      omega

/-! ## One relaxation -/

theorem relax_nofire_facts {g : Graph Nat} {s : Nat} {D : List Nat} {v dv dn : Nat}
    {st : DState} {n : Nat}
    (inv : DInv g s D (some v) st) (hv : aget st.dist v = some dv)
    (hdn : aget st.dist n = some dn) (hge : ¬ dv + 1 < dn) :
    StepFacts g s D v dv [n] st st := by
  refine ⟨inv, hv, Nat.le_refl _, fun e he => he, ?_, ?_, fun w hw => hw, ?_, ?_,
    fun w hw => Or.inl hw⟩
  · intro w dw hw
    exact ⟨dw, hw, Nat.le_refl _⟩
  · intro n' hn'
    simp only [List.mem_singleton] at hn'
    subst hn'
    exact ⟨dn, hdn, by omega⟩
  · intro e he
    exact Or.inl he
  · intro n' hn' hnone
    simp only [List.mem_singleton] at hn'
    subst hn'
    rw [hdn] at hnone
    exact absurd hnone (by simp)

theorem relax_fire_facts {g : Graph Nat} {s : Nat} {D : List Nat} {v dv : Nat}
    {st : DState} {n : Nat}
    (inv : DInv g s D (some v) st) (hv : aget st.dist v = some dv)
    (hn : n ∈ g.nbrs v)
    (hfire : aget st.dist n = none ∨ ∃ dn, aget st.dist n = some dn ∧ dv + 1 < dn) :
    StepFacts g s D v dv [n] st
      ⟨st.heap ++ [(dv + 1, n)], aset st.dist n (dv + 1), aset st.prev n v⟩ := by
  have hns : n ≠ s := by
    rintro rfl
    rcases hfire with h | ⟨dn, hdn, hlt⟩
    · rw [inv.start0] at h
      exact absurd h (by simp)
    · rw [inv.start0] at hdn
      obtain rfl : dn = 0 := by simpa using hdn.symm
      omega
  have hnv : n ≠ v := by
    rintro rfl
    rcases hfire with h | ⟨dn, hdn, hlt⟩
    · rw [hv] at h
      exact absurd h (by simp)
    · rw [hv] at hdn
      obtain rfl : dn = dv := by simpa using hdn.symm
      omega
  have hinv : DInv g s D (some v)
      ⟨st.heap ++ [(dv + 1, n)], aset st.dist n (dv + 1), aset st.prev n v⟩ := by
    refine ⟨?_, ?_, ?_, ?_, ?_, ?_, ?_, ?_, ?_, ?_, ?_, ?_⟩
    · show aget (aset st.dist n (dv + 1)) s = some 0
      rw [aget_aset_ne _ _ _ _ (Ne.symm hns)]
      exact inv.start0
    · intro k w hkw
      rcases List.mem_append.mp hkw with hold | hnew
      · obtain ⟨dw, hdw, hle⟩ := inv.heapLB k w hold
        by_cases hwn : w = n
        · subst hwn
          refine ⟨dv + 1, by simp, ?_⟩
          rcases hfire with h | ⟨dn, hdn, hlt⟩
          · rw [h] at hdw
            exact absurd hdw (by simp)
          · rw [hdn] at hdw
            obtain rfl : dw = dn := by simpa using hdw.symm
            omega
        · refine ⟨dw, ?_, hle⟩
          show aget (aset st.dist n (dv + 1)) w = some dw
          rw [aget_aset_ne _ _ _ _ hwn]
          exact hdw
      · simp only [List.mem_singleton, Prod.mk.injEq] at hnew
        obtain ⟨rfl, rfl⟩ := hnew
        exact ⟨dv + 1, by simp, Nat.le_refl _⟩
    · intro w dw hw
      by_cases hwn : w = n
      · subst hwn
        simp only [aget_aset_self, Option.some.injEq] at hw
        subst hw
        exact reachIn_step (inv.sound v dv hv) hn
      · rw [show aget (aset st.dist n (dv + 1)) w = aget st.dist w from
          aget_aset_ne _ _ _ _ hwn] at hw
        exact inv.sound w dw hw
    · intro w dw hw hwex
      by_cases hwn : w = n
      · subst hwn
        simp only [aget_aset_self, Option.some.injEq] at hw
        subst hw
        exact Or.inl (by simp)
      · rw [show aget (aset st.dist n (dv + 1)) w = aget st.dist w from
          aget_aset_ne _ _ _ _ hwn] at hw
        rcases inv.disj w dw hw hwex with hA | hB
        · exact Or.inl (List.mem_append_left _ hA)
        · refine Or.inr ?_
          intro x hx
          obtain ⟨dx, hdx, hxle⟩ := hB x hx
          by_cases hxn : x = n
          · subst hxn
            refine ⟨dv + 1, by simp, ?_⟩
            rcases hfire with h | ⟨dn, hdn, hlt⟩
            · rw [h] at hdx
              exact absurd hdx (by simp)
            · rw [hdn] at hdx
              obtain rfl : dx = dn := by simpa using hdx.symm
              omega
          · refine ⟨dx, ?_, hxle⟩
            show aget (aset st.dist n (dv + 1)) x = some dx
            rw [aget_aset_ne _ _ _ _ hxn]
            exact hdx
    · intro w hwD hwex dw hw
      by_cases hwn : w = n
      · subst hwn
        simp only [aget_aset_self, Option.some.injEq] at hw
        subst hw
        exact List.mem_append_right _ (by simp)
      · rw [show aget (aset st.dist n (dv + 1)) w = aget st.dist w from
          aget_aset_ne _ _ _ _ hwn] at hw
        exact List.mem_append_left _ (inv.hdest w hwD hwex dw hw)
    · intro w c hwc
      by_cases hwn : w = n
      · subst hwn
        simp only [aget_aset_self, Option.some.injEq] at hwc
        subst hwc
        refine ⟨hn, dv + 1, dv, by simp, ?_, Nat.le_refl _⟩
        show aget (aset st.dist _ (dv + 1)) v = some dv
        rw [aget_aset_ne _ _ _ _ (Ne.symm hnv)]
        exact hv
      · rw [show aget (aset st.prev n v) w = aget st.prev w from
          aget_aset_ne _ _ _ _ hwn] at hwc
        obtain ⟨hadj, dn₀, dc₀, hdn₀, hdc₀, hle⟩ := inv.prevAdj w c hwc
        refine ⟨hadj, dn₀, ?_⟩
        have hw' : aget (aset st.dist n (dv + 1)) w = some dn₀ := by
          rw [aget_aset_ne _ _ _ _ hwn]
          exact hdn₀
        by_cases hcn : c = n
        · subst hcn
          refine ⟨dv + 1, hw', by simp, ?_⟩
          rcases hfire with h | ⟨dn, hdn, hlt⟩
          · rw [h] at hdc₀
            exact absurd hdc₀ (by simp)
          · rw [hdn] at hdc₀
            obtain rfl : dc₀ = dn := by simpa using hdc₀.symm
            omega
        · refine ⟨dc₀, hw', ?_, hle⟩
          show aget (aset st.dist n (dv + 1)) c = some dc₀
          rw [aget_aset_ne _ _ _ _ hcn]
          exact hdc₀
    · intro w hws
      by_cases hwn : w = n
      · subst hwn
        simp
      · show (aget (aset st.dist n (dv + 1)) w).isSome ↔
          (aget (aset st.prev n v) w).isSome
        rw [aget_aset_ne _ _ _ _ hwn, aget_aset_ne _ _ _ _ hwn]
        exact inv.prevDom w hws
    · show aget (aset st.prev n v) s = none
      rw [aget_aset_ne _ _ _ _ (Ne.symm hns)]
      exact inv.prevStart
    · intro w dw hw
      by_cases hwn : w = n
      · subst hwn
        exact mem_nbrs_dom hn
      · rw [show aget (aset st.dist n (dv + 1)) w = aget st.dist w from
          aget_aset_ne _ _ _ _ hwn] at hw
        exact inv.distDom w dw hw
    · show ((aset st.dist n (dv + 1)).map Prod.fst).Nodup
      rw [keys_aset]
      rcases hfire with h | ⟨dn, hdn, hlt⟩
      · rw [h]
        simp only [Option.isSome_none, Bool.false_eq_true, if_false]
        exact inv.distNodup.append (List.nodup_singleton n)
          (fun _ ha hb => (aget_eq_none_iff.mp h) ((List.mem_singleton.mp hb) ▸ ha))
      · rw [hdn]
        simp only [Option.isSome_some, if_true]
        exact inv.distNodup
    · show ((aset st.prev n v).map Prod.fst).Nodup
      rw [keys_aset]
      have hdp := inv.prevDom n hns
      rcases hfire with h | ⟨dn, hdn, hlt⟩
      · have hpn : aget st.prev n = none := by
          rcases hp : aget st.prev n with _ | c
          · rfl
          · rw [h] at hdp
            simp [hp] at hdp
        rw [hpn]
        simp only [Option.isSome_none, Bool.false_eq_true, if_false]
        exact inv.prevNodup.append (List.nodup_singleton n)
          (fun _ ha hb => (aget_eq_none_iff.mp hpn) ((List.mem_singleton.mp hb) ▸ ha))
      · have hpn : (aget st.prev n).isSome := by
          rw [← hdp, hdn]
          simp
        rw [if_pos hpn]
        exact inv.prevNodup
    · intro w dw hw
      have hlen := length_aset st.dist n (dv + 1)
      rcases hfire with h | ⟨dn, hdn, hlt⟩
      · rw [h] at hlen
        simp only [Option.isSome_none, Bool.false_eq_true, if_false] at hlen
        show dw < (aset st.dist n (dv + 1)).length
        rw [hlen]
        by_cases hwn : w = n
        · subst hwn
          simp only [aget_aset_self, Option.some.injEq] at hw
          subst hw
          have := inv.count v dv hv
          omega
        · rw [show aget (aset st.dist n (dv + 1)) w = aget st.dist w from
            aget_aset_ne _ _ _ _ hwn] at hw
          have := inv.count w dw hw
          omega
      · rw [hdn] at hlen
        simp only [Option.isSome_some, if_true] at hlen
        show dw < (aset st.dist n (dv + 1)).length
        rw [hlen]
        by_cases hwn : w = n
        · subst hwn
          simp only [aget_aset_self, Option.some.injEq] at hw
          subst hw
          have := inv.count _ dn hdn
          omega
        · rw [show aget (aset st.dist n (dv + 1)) w = aget st.dist w from
            aget_aset_ne _ _ _ _ hwn] at hw
          exact inv.count w dw hw
  refine ⟨hinv, ?_, ?_, ?_, ?_, ?_, ?_, ?_, ?_, ?_⟩
  · show aget (aset st.dist n (dv + 1)) v = some dv
    rw [aget_aset_ne _ _ _ _ (Ne.symm hnv)]
    exact hv
  · -- the measure does not increase
    have hT := dom_len_le g s
    rcases hfire with h | ⟨dn, hdn, hlt⟩
    · have hlen := length_aset st.dist n (dv + 1)
      rw [h] at hlen
      simp only [Option.isSome_none, Bool.false_eq_true, if_false] at hlen
      have hsum := distSum_aset_none h (dv + 1)
      have hdomb : st.dist.length + 1 ≤ (Dom g s).length := by
        have := dist_len_le_dom hinv
        simp only [hlen] at this
        exact this
      have hdv := inv.count v dv hv
      show (totalAdj g + 3) * ((Dom g s).length - (aset st.dist n (dv + 1)).length) +
          ((aset st.dist n (dv + 1)).map Prod.snd).sum +
          (st.heap ++ [(dv + 1, n)]).length ≤ mu g s st
      rw [hlen, hsum, List.length_append]
      unfold mu distSum
      have ha : (Dom g s).length - st.dist.length =
          ((Dom g s).length - (st.dist.length + 1)) + 1 := by omega
      rw [ha, Nat.mul_add, Nat.mul_one]
      simp only [List.length_singleton]
      omega
    · have hlen := length_aset st.dist n (dv + 1)
      rw [hdn] at hlen
      simp only [Option.isSome_some, if_true] at hlen
      have hsum := distSum_aset_some hdn (dv + 1)
      show (totalAdj g + 3) * ((Dom g s).length - (aset st.dist n (dv + 1)).length) +
          ((aset st.dist n (dv + 1)).map Prod.snd).sum +
          (st.heap ++ [(dv + 1, n)]).length ≤ mu g s st
      rw [hlen, List.length_append]
      unfold mu distSum
      simp only [List.length_singleton]
      omega
  · intro e he
    exact List.mem_append_left _ he
  · intro w dw hw
    by_cases hwn : w = n
    · subst hwn
      rcases hfire with h | ⟨dn, hdn, hlt⟩
      · rw [h] at hw
        exact absurd hw (by simp)
      · rw [hdn] at hw
        obtain rfl : dw = dn := by simpa using hw.symm
        exact ⟨dv + 1, by simp, by omega⟩
    · refine ⟨dw, ?_, Nat.le_refl _⟩
      show aget (aset st.dist n (dv + 1)) w = some dw
      rw [aget_aset_ne _ _ _ _ hwn]
      exact hw
  · intro n' hn'
    simp only [List.mem_singleton] at hn'
    subst hn'
    exact ⟨dv + 1, by simp, Nat.le_refl _⟩
  · intro w hw
    by_cases hwn : w = n
    · subst hwn
      simp
    · show (aget (aset st.prev n v) w).isSome
      rw [aget_aset_ne _ _ _ _ hwn]
      exact hw
  · intro e he
    rcases List.mem_append.mp he with h | h
    · exact Or.inl h
    · simp only [List.mem_singleton] at h
      subst h
      exact Or.inr ⟨by simp, hns⟩
  · intro n' hn' _
    simp only [List.mem_singleton] at hn'
    subst hn'
    exact ⟨dv + 1, List.mem_append_right _ (by simp)⟩
  · intro w hw
    by_cases hwn : w = n
    · exact Or.inr (by simp [hwn])
    · refine Or.inl ?_
      show aget (aset st.dist n (dv + 1)) w = none
      rw [aget_aset_ne _ _ _ _ hwn]
      exact hw

theorem relax_facts {g : Graph Nat} {s : Nat} {D : List Nat} {v dv : Nat}
    {st : DState} {n : Nat}
    (inv : DInv g s D (some v) st) (hv : aget st.dist v = some dv)
    (hn : n ∈ g.nbrs v) :
    StepFacts g s D v dv [n] st (relax v st n) := by
  cases hdn : aget st.dist n with
  | none =>
    have heq : relax v st n =
        ⟨st.heap ++ [(dv + 1, n)], aset st.dist n (dv + 1), aset st.prev n v⟩ := by
      simp only [relax, hv, Option.getD_some, hdn]
    rw [heq]
    exact relax_fire_facts inv hv hn (Or.inl hdn)
  | some dn =>
    by_cases hlt : dv + 1 < dn
    · have heq : relax v st n =
          ⟨st.heap ++ [(dv + 1, n)], aset st.dist n (dv + 1), aset st.prev n v⟩ := by
        simp only [relax, hv, Option.getD_some, hdn, if_pos hlt]
      rw [heq]
      exact relax_fire_facts inv hv hn (Or.inr ⟨dn, hdn, hlt⟩)
    · have heq : relax v st n = st := by
        simp only [relax, hv, Option.getD_some, hdn, if_neg hlt]
      rw [heq]
      exact relax_nofire_facts inv hv hdn hlt

/-! ## Composing relaxations -/

theorem StepFacts.comp {g : Graph Nat} {s : Nat} {D : List Nat} {v dv : Nat}
    {n : Nat} {t : List Nat} {st st₁ st' : DState}
    (h1 : StepFacts g s D v dv [n] st st₁)
    (h2 : StepFacts g s D v dv t st₁ st') :
    StepFacts g s D v dv (n :: t) st st' := by
  refine ⟨h2.inv, h2.curStable, Nat.le_trans h2.muLe h1.muLe, ?_, ?_, ?_, ?_, ?_, ?_, ?_⟩
  · intro e he
    exact h2.heapMono e (h1.heapMono e he)
  · intro w dw hw
    obtain ⟨dw1, hw1, hle1⟩ := h1.distMono w dw hw
    obtain ⟨dw2, hw2, hle2⟩ := h2.distMono w dw1 hw1
    exact ⟨dw2, hw2, Nat.le_trans hle2 hle1⟩
  · intro m hm
    rcases List.mem_cons.mp hm with rfl | hm2
    · obtain ⟨dn, hdn, hle⟩ := h1.relaxed m (by simp)
      obtain ⟨dn2, hdn2, hle2⟩ := h2.distMono m dn hdn
      exact ⟨dn2, hdn2, Nat.le_trans hle2 hle⟩
    · exact h2.relaxed m hm2
  · intro w hw
    exact h2.prevMono w (h1.prevMono w hw)
  · intro e he
    rcases h2.heapOrigin e he with h | ⟨hm, hs⟩
    · rcases h1.heapOrigin e h with h' | ⟨hm', hs'⟩
      · exact Or.inl h'
      · exact Or.inr ⟨List.mem_cons.mpr (Or.inl (List.mem_singleton.mp hm')), hs'⟩
    · exact Or.inr ⟨List.mem_cons_of_mem _ hm, hs⟩
  · intro m hm hnone
    rcases List.mem_cons.mp hm with rfl | hm2
    · obtain ⟨k, hk⟩ := h1.freshPush m (by simp) hnone
      exact ⟨k, h2.heapMono _ hk⟩
    · rcases h1.distNew m hnone with h | h
      · exact h2.freshPush m hm2 h
      · obtain rfl := List.mem_singleton.mp h
        obtain ⟨k, hk⟩ := h1.freshPush m (by simp) hnone
        exact ⟨k, h2.heapMono _ hk⟩
  · intro w hw
    rcases h1.distNew w hw with h | h
    · rcases h2.distNew w h with h' | h'
      · exact Or.inl h'
      · exact Or.inr (List.mem_cons_of_mem _ h')
    · exact Or.inr (List.mem_cons.mpr (Or.inl (List.mem_singleton.mp h)))

theorem foldRelax {g : Graph Nat} {s : Nat} {D : List Nat} {v dv : Nat} :
    ∀ (l : List Nat) (st : DState), (∀ n ∈ l, n ∈ g.nbrs v) →
      DInv g s D (some v) st → aget st.dist v = some dv →
      StepFacts g s D v dv l st (l.foldl (relax v) st) := by
  intro l
  induction l with
  | nil =>
    intro st _ inv hv
    exact ⟨inv, hv, Nat.le_refl _, fun e he => he,
      fun w dw hw => ⟨dw, hw, Nat.le_refl _⟩, by simp, fun w hw => hw,
      fun e he => Or.inl he, by simp, fun w hw => Or.inl hw⟩
  | cons n t ih =>
    intro st hl inv hv
    have h1 := relax_facts inv hv (hl n (by simp))
    have h2 := ih (relax v st n) (fun m hm => hl m (List.mem_cons_of_mem _ hm))
      h1.inv h1.curStable
    exact h1.comp h2

/-! ## Invariant transitions at a pop -/

theorem DInv.weaken {g : Graph Nat} {s : Nat} {D : List Nat} {st : DState}
    {v : Nat} (inv : DInv g s D none st) : DInv g s D (some v) st :=
  ⟨inv.start0, inv.heapLB, inv.sound,
    fun n d h _ => inv.disj n d h (by simp),
    fun w hw _ d hd => inv.hdest w hw (by simp) d hd,
    inv.prevAdj, inv.prevDom, inv.prevStart, inv.distDom, inv.distNodup,
    inv.prevNodup, inv.count⟩

theorem DInv.restore {g : Graph Nat} {s : Nat} {D : List Nat} {v dv : Nat}
    {st : DState} (inv : DInv g s D (some v) st)
    (hv : aget st.dist v = some dv)
    (hrel : ∀ w ∈ g.nbrs v, ∃ dw, aget st.dist w = some dw ∧ dw ≤ dv + 1)
    (hvD : v ∉ D) : DInv g s D none st := by
  refine ⟨inv.start0, inv.heapLB, inv.sound, ?_, ?_, inv.prevAdj, inv.prevDom,
    inv.prevStart, inv.distDom, inv.distNodup, inv.prevNodup, inv.count⟩
  · intro n d h _
    by_cases hn : n = v
    · subst hn
      obtain rfl : d = dv := by
        rw [hv] at h
        simpa using h.symm
      exact Or.inr hrel
    · exact inv.disj n d h (by simp [hn])
  · intro w hw _ d hd
    by_cases hwv : w = v
    · subst hwv
      exact absurd hw hvD
    · exact inv.hdest w hw (by simp [hwv]) d hd

theorem DInv.pop {g : Graph Nat} {s : Nat} {D : List Nat} {st : DState}
    {k w : Nat} {h' : List (Nat × Nat)}
    (inv : DInv g s D none st) (hp : popMin st.heap = some ((k, w), h')) :
    DInv g s D (some w) ⟨h', st.dist, st.prev⟩ := by
  refine ⟨inv.start0, ?_, inv.sound, ?_, ?_, inv.prevAdj, inv.prevDom,
    inv.prevStart, inv.distDom, inv.distNodup, inv.prevNodup, inv.count⟩
  · intro k' n hk'
    exact inv.heapLB k' n (popMin_rest_mem hp _ hk')
  · intro n d h hex
    rcases inv.disj n d h (by simp) with hA | hB
    · rcases popMin_cases hp _ hA with h2 | h2
      · obtain ⟨-, rfl⟩ : d = k ∧ n = w := by
          constructor <;> [exact congrArg Prod.fst h2; exact congrArg Prod.snd h2]
        exact (hex rfl).elim
      · exact Or.inl h2
    · exact Or.inr hB
  · intro w' hw' hex d hd
    have h2 := inv.hdest w' hw' (by simp) d hd
    rcases popMin_cases hp _ h2 with h3 | h3
    · obtain ⟨-, rfl⟩ : d = k ∧ w' = w := by
        constructor <;> [exact congrArg Prod.fst h3; exact congrArg Prod.snd h3]
      exact (hex rfl).elim
    · exact h3

/-! ## The frontier lemma: any reachable vertex is either already labelled
within its true distance, or some queue entry has key within it. -/

theorem front {g : Graph Nat} {s : Nat} {D : List Nat} {st : DState}
    (inv : DInv g s D none st) :
    ∀ (t : Nat) (z : Nat), reachIn g s t z →
      (∃ dz, aget st.dist z = some dz ∧ dz ≤ t) ∨ (∃ e ∈ st.heap, e.1 ≤ t) := by
  intro t
  induction t with
  | zero =>
    intro z hz
    have hz' : z = s := hz
    subst hz'
    exact Or.inl ⟨0, inv.start0, Nat.le_refl _⟩
  | succ t ih =>
    intro z hz
    have hz' : reachIn g s t z ∨ ∃ u, u ∈ g.keys ∧ reachIn g s t u ∧ z ∈ g.nbrs u := hz
    rcases hz' with hz2 | ⟨u, _, hru, hnb⟩
    · rcases ih z hz2 with ⟨dz, hdz, hle⟩ | ⟨e, he, hle⟩
      · exact Or.inl ⟨dz, hdz, Nat.le_succ_of_le hle⟩
      · exact Or.inr ⟨e, he, Nat.le_succ_of_le hle⟩
    · rcases ih u hru with ⟨du, hdu, hdule⟩ | ⟨e, he, hele⟩
      · rcases inv.disj u du hdu (by simp) with hA | hB
        · exact Or.inr ⟨(du, u), hA, by omega⟩
        · obtain ⟨dz, hdz, hdzle⟩ := hB z hnb
          exact Or.inl ⟨dz, hdz, by omega⟩
      · exact Or.inr ⟨e, he, Nat.le_succ_of_le hele⟩

/-! ## The search loop -/

theorem mu_pop {g : Graph Nat} {s : Nat} {st : DState} {k w : Nat}
    {h' : List (Nat × Nat)} (hp : popMin st.heap = some ((k, w), h')) :
    mu g s ⟨h', st.dist, st.prev⟩ + 1 = mu g s st := by
  unfold mu distSum
  have := popMin_length hp
  simp only []
  omega

theorem go_none {g : Graph Nat} {D : List Nat} {fuel : Nat} {st : DState}
    {cur : Nat} (hp : popMin st.heap = none) :
    go g D (fuel + 1) st cur = some (cur, st) := by
  rw [go, hp]

theorem go_break {g : Graph Nat} {D : List Nat} {fuel : Nat} {st : DState}
    {cur k w : Nat} {h' : List (Nat × Nat)}
    (hp : popMin st.heap = some ((k, w), h')) (hw : w ∈ D) :
    go g D (fuel + 1) st cur = some (w, ⟨h', st.dist, st.prev⟩) := by
  rw [go, hp]
  simp [hw]

theorem go_rec {g : Graph Nat} {D : List Nat} {fuel : Nat} {st : DState}
    {cur k w : Nat} {h' : List (Nat × Nat)}
    (hp : popMin st.heap = some ((k, w), h')) (hw : w ∉ D) :
    go g D (fuel + 1) st cur =
      go g D fuel (step g ⟨h', st.dist, st.prev⟩ w) w := by
  rw [go, hp]
  simp [hw]

/-- Full behavior of the `while min_heap` loop under the invariant: with
sufficient fuel it returns; it breaks on a destination exactly when one is
popped, and the popped destination carries a recorded distance that is
both attained and minimal over the whole destination set; otherwise it
drains the queue. -/
theorem go_main {g : Graph Nat} {s : Nat} {D : List Nat} :
    ∀ (fuel : Nat) (st : DState) (cur : Nat),
      DInv g s D none st → mu g s st < fuel → (aget st.dist cur).isSome →
      cur ∉ D →
      ∃ v st', go g D fuel st cur = some (v, st') ∧
        (aget st'.dist v).isSome ∧
        (∀ w, (aget st.prev w).isSome → (aget st'.prev w).isSome) ∧
        ((v = cur ∧ st' = st) ∨ v = s ∨ (aget st'.prev v).isSome) ∧
        ((v ∈ D ∧ DInv g s D (some v) st' ∧
            ∃ k, aget st'.dist v = some k ∧ reachIn g s k v ∧
              ∀ w ∈ D, ∀ t, reachIn g s t w → k ≤ t) ∨
          (v ∉ D ∧ DInv g s D none st' ∧ st'.heap = [])) := by
  intro fuel
  induction fuel with
  | zero =>
    intro st cur _ hmu _ _
    exact absurd hmu (Nat.not_lt_zero _)
  | succ fuel ih =>
    intro st cur inv hmu hcur hcurD
    cases hp : popMin st.heap with
    | none =>
      exact ⟨cur, st, go_none hp, hcur, fun w hw => hw, Or.inl ⟨rfl, rfl⟩,
        Or.inr ⟨hcurD, inv, popMin_eq_none_iff.mp hp⟩⟩
    | some pr =>
      obtain ⟨⟨k, w⟩, h'⟩ := pr
      have hw_mem := popMin_mem hp
      have hmin := popMin_le hp
      obtain ⟨dw, hdw, hdwk⟩ := inv.heapLB k w hw_mem
      by_cases hwD : w ∈ D
      · have hkdw : k = dw := by
          have h2 := inv.hdest w hwD (by simp) dw hdw
          have h3 : k ≤ dw := hmin _ h2
          omega
        refine ⟨w, ⟨h', st.dist, st.prev⟩, go_break hp hwD, ?_,
          fun w' hw' => hw', ?_, ?_⟩
        · show (aget st.dist w).isSome
          simp [hdw]
        · by_cases hws : w = s
          · exact Or.inr (Or.inl hws)
          · refine Or.inr (Or.inr ?_)
            show (aget st.prev w).isSome
            rw [← inv.prevDom w hws]
            simp [hdw]
        · refine Or.inl ⟨hwD, DInv.pop inv hp, dw, hdw, inv.sound w dw hdw, ?_⟩
          intro w' hw' t hreach
          rcases front inv t w' hreach with ⟨dz, hdz, hle⟩ | ⟨e, he, hle⟩
          · have h2 := inv.hdest w' hw' (by simp) dz hdz
            have h3 : k ≤ dz := hmin _ h2
            omega
          · have h3 : k ≤ e.1 := hmin _ he
            omega
      · have inv₁ := DInv.pop inv hp
        have hdw₁ : aget (⟨h', st.dist, st.prev⟩ : DState).dist w = some dw := hdw
        have sf := foldRelax (g.nbrs w) ⟨h', st.dist, st.prev⟩
          (fun n hn => hn) inv₁ hdw₁
        have inv₂ := DInv.restore sf.inv sf.curStable sf.relaxed hwD
        have hmu₂ : mu g s ((g.nbrs w).foldl (relax w) ⟨h', st.dist, st.prev⟩) <
            fuel := by
          have h1 := sf.muLe
          have h2 := @mu_pop g s _ _ _ _ hp
          omega
        have hcur₂ : (aget ((g.nbrs w).foldl (relax w)
            (⟨h', st.dist, st.prev⟩ : DState)).dist w).isSome := by
          rw [sf.curStable]
          simp
        obtain ⟨v, st', hgo, hvsome, hPM, hE, hB⟩ := ih _ w inv₂ hmu₂ hcur₂ hwD
        refine ⟨v, st', ?_, hvsome, ?_, ?_, hB⟩
        · rw [go_rec hp hwD]
          exact hgo
        · intro w' hw'
          exact hPM w' (sf.prevMono w' hw')
        · rcases hE with ⟨hveq, hsteq⟩ | hE2
          · by_cases hws : v = s
            · exact Or.inr (Or.inl hws)
            · refine Or.inr (Or.inr ?_)
              rcases hB with ⟨_, invB, _⟩ | ⟨_, invB, _⟩ <;>
                (rw [← invB.prevDom v hws]; exact hvsome)
          · exact Or.inr hE2

/-! ## Initial state -/

theorem aget_single (s : Nat) (n : Nat) :
    aget [(s, 0)] n = if n = s then some 0 else none := rfl

theorem DInv_init {g : Graph Nat} {s : Nat} {D : List Nat} (hsD : s ∉ D) :
    DInv g s D none ⟨[(0, s)], [(s, 0)], []⟩ := by
  refine ⟨?_, ?_, ?_, ?_, ?_, ?_, ?_, ?_, ?_, ?_, ?_, ?_⟩
  · simp [aget]
  · intro k n hkn
    simp only [List.mem_singleton, Prod.mk.injEq] at hkn
    obtain ⟨rfl, rfl⟩ := hkn
    exact ⟨0, by simp [aget], Nat.le_refl _⟩
  · intro n d h
    rw [aget_single] at h
    by_cases hn : n = s
    · subst hn
      rw [if_pos rfl] at h
      obtain rfl : d = 0 := by simpa using h.symm
      exact reachIn_self g _ 0
    · rw [if_neg hn] at h
      exact absurd h (by simp)
  · intro n d h _
    rw [aget_single] at h
    by_cases hn : n = s
    · subst hn
      rw [if_pos rfl] at h
      obtain rfl : d = 0 := by simpa using h.symm
      exact Or.inl (by simp)
    · rw [if_neg hn] at h
      exact absurd h (by simp)
  · intro v hv _ d hd
    rw [aget_single] at hd
    by_cases hvs : v = s
    · subst hvs
      exact absurd hv hsD
    · rw [if_neg hvs] at hd
      exact absurd hd (by simp)
  · intro n c h
    simp [aget] at h
  · intro n hns
    show (aget [(s, 0)] n).isSome ↔ (aget [] n).isSome
    rw [aget_single, if_neg hns]
    simp [aget]
  · rfl
  · intro n d h
    rw [aget_single] at h
    by_cases hn : n = s
    · subst hn
      exact start_mem_dom g _
    · rw [if_neg hn] at h
      exact absurd h (by simp)
  · simp
  · simp
  · intro n d h
    rw [aget_single] at h
    by_cases hn : n = s
    · subst hn
      rw [if_pos rfl] at h
      obtain rfl : d = 0 := by simpa using h.symm
      simp
    · rw [if_neg hn] at h
      exact absurd h (by simp)

theorem mu_init_lt (g : Graph Nat) (s : Nat) :
    mu g s ⟨[(0, s)], [(s, 0)], []⟩ < dijkstraFuel g := by
  unfold mu distSum dijkstraFuel
  have h1 := dom_len_le g s
  have h2 : 0 < (Dom g s).length := List.length_pos_of_mem (start_mem_dom g s)
  have h3 : (totalAdj g + 3) * ((Dom g s).length - 1) ≤
      (totalAdj g + 3) * totalAdj g :=
    Nat.mul_le_mul_left _ (by omega)
  have h4 : (totalAdj g + 3) * (totalAdj g + 3) =
      (totalAdj g + 3) * totalAdj g + (totalAdj g + 3) * 3 := by ring
  simp only [List.length_cons, List.length_nil, List.map_cons, List.map_nil,
    List.sum_cons, List.sum_nil, Nat.zero_add]
  omega

/-! ## Path reconstruction -/

theorem buildPath_start (s : Nat) (pm : List (Nat × Nat)) (f : Nat)
    (acc : List Nat) : buildPath s pm (f + 1) s acc = acc := by
  rw [buildPath, if_pos rfl]

theorem buildPath_step {s : Nat} {pm : List (Nat × Nat)} {f cur c : Nat}
    (hcs : cur ≠ s) (hc : aget pm cur = some c) (acc : List Nat) :
    buildPath s pm (f + 1) cur acc = buildPath s pm f c (c :: acc) := by
  rw [buildPath, if_neg hcs, hc]

/-- Following `prev` from any labelled vertex reaches the source within its
recorded distance, yielding a duplicate-free path whose hops all follow
recorded edges. -/
theorem buildPath_spec {g : Graph Nat} {s : Nat} {D : List Nat} {ex : Option Nat}
    {st : DState} (inv : DInv g s D ex st) :
    ∀ (dc : Nat) (cur : Nat) (rest : List Nat) (fuel : Nat),
      aget st.dist cur = some dc → dc < fuel →
      ∃ p, buildPath s st.prev fuel cur (cur :: rest) = p ++ cur :: rest ∧
        (p ++ [cur]).head? = some s ∧
        List.Chain' (fun a b => b ∈ g.nbrs a) (p ++ [cur]) ∧
        (p ++ [cur]).length ≤ dc + 1 ∧
        (∀ x ∈ p, ∃ dx, aget st.dist x = some dx ∧ dx < dc) ∧
        (p ++ [cur]).Nodup := by
  intro dc
  induction dc using Nat.strong_induction_on with
  | _ dc ihd =>
    intro cur rest fuel hcur hfuel
    obtain ⟨f, rfl⟩ : ∃ f, fuel = f + 1 := ⟨fuel - 1, by omega⟩
    by_cases hcs : cur = s
    · subst hcs
      exact ⟨[], buildPath_start _ _ _ _, by simp, by simp, by simp, by simp,
        by simp⟩
    · have hprev : (aget st.prev cur).isSome := by
        rw [← inv.prevDom cur hcs]
        simp [hcur]
      obtain ⟨c, hc⟩ := Option.isSome_iff_exists.mp hprev
      obtain ⟨hadj, dn, dc', hdn, hdc', hlt⟩ := inv.prevAdj cur c hc
      obtain rfl : dn = dc := by
        rw [hcur] at hdn
        simpa using hdn.symm
      have hdcf : dc' < f := by omega
      obtain ⟨p', hbp, hhead, hchain, hlen, hmem, hnd⟩ :=
        ihd dc' (by omega) c (cur :: rest) f hdc' hdcf
      refine ⟨p' ++ [c], ?_, ?_, ?_, ?_, ?_, ?_⟩
      · rw [buildPath_step hcs hc, hbp]
        simp
      · cases hp' : p' with
        | nil =>
          rw [hp'] at hhead
          simpa using hhead
        | cons a t =>
          rw [hp'] at hhead
          simpa using hhead
      · rw [List.chain'_append]
        refine ⟨hchain, by simp, ?_⟩
        intro x hx y hy
        have hlast : (p' ++ [c]).getLast? = some c := by simp
        rw [hlast] at hx
        obtain rfl : c = x := by simpa using hx
        obtain rfl : cur = y := by simpa using hy
        exact hadj
      · have : (p' ++ [c] ++ [cur]).length = (p' ++ [c]).length + 1 := by simp
        omega
      · intro x hx
        rcases List.mem_append.mp hx with hx2 | hx2
        · obtain ⟨dx, hdx, hdxlt⟩ := hmem x hx2
          exact ⟨dx, hdx, by omega⟩
        · obtain rfl : x = c := by simpa using hx2
          exact ⟨dc', hdc', by omega⟩
      · rw [List.nodup_append]
        refine ⟨hnd, List.nodup_singleton _, ?_⟩
        intro x hx hx2
        have hxc : x = cur := by simpa using hx2
        rcases List.mem_append.mp hx with hx3 | hx3
        · obtain ⟨dx, hdx, hdxlt⟩ := hmem x hx3
          rw [hxc, hcur] at hdx
          have hddx := Option.some.inj hdx
          omega
        · have hxc3 : x = c := by simpa using hx3
          rw [hxc3] at hxc
          rw [hxc] at hdc'
          rw [hcur] at hdc'
          have hddc := Option.some.inj hdc'
          omega

/-- A head-to-last chain along recorded edges witnesses reachability within
its hop count. -/
theorem chain_reachIn {g : Graph Nat} {s : Nat} :
    ∀ (l : List Nat) (a : Nat) (n : Nat) (z : Nat),
      List.Chain' (fun x y => y ∈ g.nbrs x) (a :: l) → reachIn g s n a →
      (a :: l).getLast? = some z → reachIn g s (n + l.length) z := by
  intro l
  induction l with
  | nil =>
    intro a n z _ hr hz
    obtain rfl : a = z := by simpa using hz
    simpa using hr
  | cons b t ih =>
    intro a n z hch hr hz
    have hab : b ∈ g.nbrs a := (List.chain'_cons.mp hch).1
    have hch' : List.Chain' (fun x y => y ∈ g.nbrs x) (b :: t) :=
      (List.chain'_cons.mp hch).2
    have hz' : (b :: t).getLast? = some z := by
      rw [← hz]
      simp [List.getLast?_cons_cons]
    have := ih b (n + 1) z hch' (reachIn_step hr hab) hz'
    have hlen : n + 1 + t.length = n + (t.length + 1) := by omega
    rw [hlen] at this
    simpa using this

/-! ## The dijkstra-level claims -/

/-- C9: when the source is itself a destination, `dijkstra` returns the
single-vertex path immediately — whether or not the source was ever
inserted into the graph. -/
theorem claim_C9_source_is_destination (g : Graph Nat) (s : Nat) (D : List Nat)
    (h : s ∈ D) : g.dijkstra s D = some [s] := by
  unfold Graph.dijkstra
  rw [if_pos h]

/-- C9 witness: on a graph into which `5` was never inserted. -/
theorem claim_C9_witness :
    (buildG ([] : List (Nat × Nat))).dijkstra 5 [7, 5] = some [5] :=
  claim_C9_source_is_destination _ 5 [7, 5] (by decide)

/-- C1: whenever some destination is reachable, `dijkstra` returns a path
from the source to a destination whose hop count is the true shortest-path
distance to the nearest destination. -/
theorem claim_C1_nearest_path (g : Graph Nat) (s : Nat) (D : List Nat)
    (hwf : g.WF) (hreach : ∃ w, w ∈ D ∧ Reachable g s w) :
    ∃ p v n, g.dijkstra s D = some p ∧ v ∈ D ∧ p.head? = some s ∧
      p.getLast? = some v ∧ shortestDist g s v n ∧ p.length = n + 1 ∧
      ∀ w ∈ D, ∀ m, reachIn g s m w → n ≤ m := by
  by_cases hsD : s ∈ D
  · refine ⟨[s], s, 0, claim_C9_source_is_destination g s D hsD, hsD, rfl, rfl,
      ⟨reachIn_self g s 0, by omega⟩, rfl, ?_⟩
    intro w _ m _
    exact Nat.zero_le m
  · obtain ⟨w₀, hw₀D, t₀, hr₀⟩ := hreach
    obtain ⟨v, st', hgo, hvsome, hPM, hE, hB⟩ :=
      go_main (dijkstraFuel g) ⟨[(0, s)], [(s, 0)], []⟩ s (DInv_init hsD)
        (mu_init_lt g s) (by simp [aget]) hsD
    rcases hB with ⟨hvD, invB, k, hk, hrk, hmin⟩ | ⟨hvD, invB, hheap⟩
    · have hvs : v ≠ s := fun h => hsD (h ▸ hvD)
      have hprev : (aget st'.prev v).isSome := by
        rw [← invB.prevDom v hvs]
        simp [hk]
      obtain ⟨c₀, hc₀⟩ := Option.isSome_iff_exists.mp hprev
      have hcnt := invB.count v k hk
      obtain ⟨p', hbp, hhead, hchain, hlen, hmem, hnd⟩ :=
        buildPath_spec invB k v [] (st'.dist.length + 1) hk (by omega)
      have hd : g.dijkstra s D = some (p' ++ [v]) := by
        unfold Graph.dijkstra
        rw [if_neg hsD]
        simp only [hgo, hc₀, hbp]
      obtain ⟨tail, htail⟩ : ∃ tail, p' ++ [v] = s :: tail := by
        cases hp : p' ++ [v] with
        | nil => exact absurd hp (by simp)
        | cons a t =>
          rw [hp] at hhead
          simp only [List.head?_cons, Option.some.injEq] at hhead
          subst hhead
          exact ⟨t, rfl⟩
      have hwalk : reachIn g s ((p' ++ [v]).length - 1) v := by
        have hch : List.Chain' (fun a b => b ∈ g.nbrs a) (s :: tail) :=
          htail ▸ hchain
        have hlast : (s :: tail).getLast? = some v := by
          rw [← htail]
          simp
        have h2 := chain_reachIn tail s 0 v hch (reachIn_self g s 0) hlast
        rw [htail]
        simpa using h2
      have hkle : k ≤ (p' ++ [v]).length - 1 := hmin v hvD _ hwalk
      have hlen1 : 1 ≤ (p' ++ [v]).length := by simp
      have hplen : (p' ++ [v]).length = k + 1 := by
        have := hlen
        simp only [List.length_append] at this hkle hlen1 ⊢
        omega
      refine ⟨p' ++ [v], v, k, hd, hvD, hhead, by simp, ⟨hrk, ?_⟩, hplen, hmin⟩
      intro m hm hr
      exact absurd (hmin v hvD m hr) (by omega)
    · exfalso
      rcases front invB t₀ w₀ hr₀ with ⟨dz, hdz, _⟩ | ⟨e, he, _⟩
      · have h2 := invB.hdest w₀ hw₀D (by simp) dz hdz
        rw [hheap] at h2
        simp at h2
      · rw [hheap] at he
        simp at he

/-- C1 witness: the spec's concrete scenario, edges
`{(1,2),(2,3),(3,4),(1,5)}`, source `1`, destinations `{4}`. -/
theorem claim_C1_witness :
    (buildG [(1, 2), (2, 3), (3, 4), (1, 5)] : Graph Nat).WF ∧
      (∃ w, w ∈ [4] ∧
        Reachable (buildG [(1, 2), (2, 3), (3, 4), (1, 5)] : Graph Nat) 1 w) ∧
      (∃ p v n,
        (buildG [(1, 2), (2, 3), (3, 4), (1, 5)] : Graph Nat).dijkstra 1 [4] =
            some p ∧ v ∈ [4] ∧ p.head? = some 1 ∧ p.getLast? = some v ∧
          shortestDist (buildG [(1, 2), (2, 3), (3, 4), (1, 5)] : Graph Nat)
            1 v n ∧ p.length = n + 1 ∧
          ∀ w ∈ [4], ∀ m,
            reachIn (buildG [(1, 2), (2, 3), (3, 4), (1, 5)] : Graph Nat) 1 m w →
              n ≤ m) :=
  ⟨by decide, ⟨4, by decide, 3, by decide⟩,
    claim_C1_nearest_path _ 1 [4] (by decide) ⟨4, by decide, 3, by decide⟩⟩

/-- C10: any path returned by `dijkstra` (with the source outside the
destination set) is nonempty, starts at the source, repeats no vertex and
follows recorded edges at every hop. -/
theorem claim_C10_path_validity (g : Graph Nat) (s : Nat) (D : List Nat)
    (p : List Nat) (hwf : g.WF) (hsD : s ∉ D)
    (hres : g.dijkstra s D = some p) :
    p ≠ [] ∧ p.head? = some s ∧ p.Nodup ∧
      List.Chain' (fun a b => b ∈ g.nbrs a) p := by
  unfold Graph.dijkstra at hres
  rw [if_neg hsD] at hres
  obtain ⟨v, st', hgo, hvsome, hPM, hE, hB⟩ :=
    go_main (dijkstraFuel g) ⟨[(0, s)], [(s, 0)], []⟩ s (DInv_init hsD)
      (mu_init_lt g s) (by simp [aget]) hsD
  rw [hgo] at hres
  have invB : DInv g s D (some v) st' := by
    rcases hB with ⟨_, invB, _⟩ | ⟨_, invB, _⟩
    · exact invB
    · exact invB.weaken
  cases hc : aget st'.prev v with
  | none =>
    simp only [hc] at hres
    exact absurd hres (by simp)
  | some c =>
    obtain ⟨k, hk⟩ := Option.isSome_iff_exists.mp hvsome
    have hcnt := invB.count v k hk
    obtain ⟨p', hbp, hhead, hchain, hlen, hmem, hnd⟩ :=
      buildPath_spec invB k v [] (st'.dist.length + 1) hk (by omega)
    simp only [hc, hbp] at hres
    obtain rfl : p = p' ++ [v] := by
      have := Option.some.inj hres
      simp at this
      rw [← this]
    exact ⟨by simp, hhead, hnd, hchain⟩

/-- C10 witness. -/
theorem claim_C10_witness :
    (buildG [(1, 2), (2, 3), (3, 4), (1, 5)] : Graph Nat).WF ∧
      (1 ∉ [4]) ∧
      (buildG [(1, 2), (2, 3), (3, 4), (1, 5)] : Graph Nat).dijkstra 1 [4] =
        some [1, 2, 3, 4] ∧
      (([1, 2, 3, 4] : List Nat) ≠ [] ∧ ([1, 2, 3, 4] : List Nat).head? = some 1 ∧
        ([1, 2, 3, 4] : List Nat).Nodup ∧
        List.Chain'
          (fun a b => b ∈ (buildG [(1, 2), (2, 3), (3, 4), (1, 5)] : Graph Nat).nbrs a)
          [1, 2, 3, 4]) :=
  ⟨by decide, by decide, by decide,
    claim_C10_path_validity _ 1 [4] [1, 2, 3, 4] (by decide) (by decide) (by decide)⟩

/-- C2: the claim is violated by the code.  On the graph with the single
edge `1 – 2` and destination set `{3}` (unreachable), `dijkstra` does not
return `None`: the queue empties without popping a destination, but the
final `current_node` (the last popped vertex, `2`) has a `prev` entry, so
the `if current_node not in prev` guard fails to detect the miss and a
path to the non-destination `2` is returned. -/
theorem claim_C2_code_bug :
    ¬ Reachable (buildG [(1, 2)] : Graph Nat) 1 3 ∧
      (buildG [(1, 2)] : Graph Nat).dijkstra 1 [3] = some [1, 2] := by
  constructor
  · rintro ⟨n, hn⟩
    have hstep : ∀ (m : Nat) (z : Nat),
        reachIn (buildG [(1, 2)] : Graph Nat) 1 m z → z = 1 ∨ z = 2 := by
      intro m
      induction m with
      | zero =>
        intro z hz
        exact Or.inl hz
      | succ m ih =>
        intro z hz
        have hz' : reachIn (buildG [(1, 2)] : Graph Nat) 1 m z ∨
            ∃ u, u ∈ (buildG [(1, 2)] : Graph Nat).keys ∧
              reachIn (buildG [(1, 2)] : Graph Nat) 1 m u ∧
              z ∈ (buildG [(1, 2)] : Graph Nat).nbrs u := hz
        rcases hz' with hz2 | ⟨u, _, hru, hnb⟩
        · exact ih z hz2
        · rcases ih u hru with rfl | rfl
          · have h1 : (buildG [(1, 2)] : Graph Nat).nbrs 1 = [2] := rfl
            rw [h1] at hnb
            simp at hnb
            exact Or.inr hnb
          · have h2 : (buildG [(1, 2)] : Graph Nat).nbrs 2 = [1] := rfl
            rw [h2] at hnb
            simp at hnb
            exact Or.inl hnb
    rcases hstep n 3 hn with h | h <;> simp at h
  · decide

/-! ## Empty destination set (claim C8) -/

/-- With no destinations and a nonempty queue all of whose entries are
non-source vertices, the exhausted search ends on a vertex that has a
predecessor (so a path, not `None`, is produced). -/
theorem go_nonempty {g : Graph Nat} {s : Nat} :
    ∀ (fuel : Nat) (st : DState) (cur : Nat),
      DInv g s [] none st → mu g s st < fuel → st.heap ≠ [] →
      (∀ e ∈ st.heap, e.2 ≠ s) →
      ∃ v st', go g [] fuel st cur = some (v, st') ∧ v ≠ s ∧
        (aget st'.prev v).isSome := by
  intro fuel
  induction fuel with
  | zero =>
    intro st cur _ hmu _ _
    exact absurd hmu (Nat.not_lt_zero _)
  | succ fuel ih =>
    intro st cur inv hmu hne hns
    cases hp : popMin st.heap with
    | none => exact absurd (popMin_eq_none_iff.mp hp) hne
    | some pr =>
      obtain ⟨⟨k, w⟩, h'⟩ := pr
      have hw_mem := popMin_mem hp
      have hws : w ≠ s := hns _ hw_mem
      obtain ⟨dw, hdw, -⟩ := inv.heapLB k w hw_mem
      have hwD : w ∉ ([] : List Nat) := by simp
      have inv₁ := DInv.pop inv hp
      have hdw₁ : aget (⟨h', st.dist, st.prev⟩ : DState).dist w = some dw := hdw
      have sf := foldRelax (g.nbrs w) ⟨h', st.dist, st.prev⟩
        (fun n hn => hn) inv₁ hdw₁
      have inv₂ := DInv.restore sf.inv sf.curStable sf.relaxed hwD
      have hprevw : (aget st.prev w).isSome := by
        rw [← inv.prevDom w hws]
        simp [hdw]
      have hprevw₂ : (aget ((g.nbrs w).foldl (relax w)
          (⟨h', st.dist, st.prev⟩ : DState)).prev w).isSome :=
        sf.prevMono w hprevw
      have hmu₂ : mu g s ((g.nbrs w).foldl (relax w) ⟨h', st.dist, st.prev⟩) <
          fuel := by
        have h1 := sf.muLe
        have h2 := @mu_pop g s _ _ _ _ hp
        omega
      rw [go_rec hp hwD]
      by_cases hh2 : ((g.nbrs w).foldl (relax w)
          (⟨h', st.dist, st.prev⟩ : DState)).heap = []
      · obtain ⟨f, rfl⟩ : ∃ f, fuel = f + 1 := ⟨fuel - 1, by omega⟩
        have hh2' : (step g (⟨h', st.dist, st.prev⟩ : DState) w).heap = [] := hh2
        exact ⟨w, _, go_none (popMin_eq_none_iff.mpr hh2'), hws, hprevw₂⟩
      · have hns₂ : ∀ e ∈ ((g.nbrs w).foldl (relax w)
            (⟨h', st.dist, st.prev⟩ : DState)).heap, e.2 ≠ s := by
          intro e he
          rcases sf.heapOrigin e he with h2 | ⟨-, h3⟩
          · exact hns e (popMin_rest_mem hp _ h2)
          · exact h3
        exact ih _ w inv₂ hmu₂ hh2 hns₂

/-- C8 (amended): a query with an empty destination set raises no error and
is not rejected; the search simply runs to exhaustion, returning `None`
exactly when the source has no neighbor other than itself, and otherwise a
path (ending at the last vertex the exhausted search popped). -/
theorem claim_C8_empty_destinations (g : Graph Nat) (s : Nat) (hwf : g.WF) :
    g.dijkstra s [] = none ↔ ∀ n ∈ g.nbrs s, n = s := by
  have hsD : s ∉ ([] : List Nat) := by simp
  constructor
  · intro hnone
    by_contra hno
    push_neg at hno
    obtain ⟨n₀, hn₀, hn₀s⟩ := hno
    unfold Graph.dijkstra at hnone
    rw [if_neg hsD] at hnone
    obtain ⟨f1, hf1⟩ : ∃ f1, dijkstraFuel g = f1 + 1 := by
      refine ⟨dijkstraFuel g - 1, ?_⟩
      have := mu_init_lt g s
      omega
    rw [hf1] at hnone
    have hp0 : popMin ([(0, s)] : List (Nat × Nat)) = some ((0, s), []) := rfl
    rw [go_rec hp0 hsD] at hnone
    have inv₀ : DInv g s [] none ⟨[(0, s)], [(s, 0)], []⟩ := DInv_init hsD
    have inv₁ := DInv.pop inv₀ hp0
    have hds : aget (⟨[], [(s, 0)], []⟩ : DState).dist s = some 0 := by
      simp [aget]
    have sf := foldRelax (g.nbrs s) ⟨[], [(s, 0)], []⟩ (fun n hn => hn) inv₁ hds
    have inv₂ := DInv.restore sf.inv sf.curStable sf.relaxed hsD
    have hne₂ : ((g.nbrs s).foldl (relax s)
        (⟨[], [(s, 0)], []⟩ : DState)).heap ≠ [] := by
      have hnone₀ : aget (⟨[], [(s, 0)], []⟩ : DState).dist n₀ = none := by
        show aget [(s, 0)] n₀ = none
        rw [aget_single, if_neg hn₀s]
      obtain ⟨kk, hkk⟩ := sf.freshPush n₀ hn₀ hnone₀
      intro hcontra
      rw [hcontra] at hkk
      simp at hkk
    have hns₂ : ∀ e ∈ ((g.nbrs s).foldl (relax s)
        (⟨[], [(s, 0)], []⟩ : DState)).heap, e.2 ≠ s := by
      intro e he
      rcases sf.heapOrigin e he with h2 | ⟨-, h3⟩
      · simp at h2
      · exact h3
    have hmu₂ : mu g s ((g.nbrs s).foldl (relax s) ⟨[], [(s, 0)], []⟩) < f1 := by
      have h1 := sf.muLe
      have h2 : mu g s (⟨[], [(s, 0)], []⟩ : DState) + 1 =
          mu g s ⟨[(0, s)], [(s, 0)], []⟩ :=
        @mu_pop g s ⟨[(0, s)], [(s, 0)], []⟩ 0 s [] hp0
      have h3 := mu_init_lt g s
      omega
    obtain ⟨v, st', hgo, hvs, hprev⟩ := go_nonempty f1 _ s inv₂ hmu₂ hne₂ hns₂
    have hgo' : go g [] f1 (step g (⟨[], [(s, 0)], []⟩ : DState) s) s =
        some (v, st') := hgo
    rw [hgo'] at hnone
    obtain ⟨c, hc⟩ := Option.isSome_iff_exists.mp hprev
    simp only [hc] at hnone
    exact Option.noConfusion hnone
  · intro hsub
    unfold Graph.dijkstra
    rw [if_neg hsD]
    obtain ⟨f2, hf2⟩ : ∃ f2, dijkstraFuel g = f2 + 1 + 1 := by
      have h9 : 9 ≤ dijkstraFuel g := by
        unfold dijkstraFuel
        have h3 : 3 ≤ totalAdj g + 3 := by omega
        calc (9 : Nat) = 3 * 3 := rfl
          _ ≤ (totalAdj g + 3) * (totalAdj g + 3) := Nat.mul_le_mul h3 h3
      exact ⟨dijkstraFuel g - 2, by omega⟩
    rw [hf2]
    have hp0 : popMin ([(0, s)] : List (Nat × Nat)) = some ((0, s), []) := rfl
    rw [go_rec hp0 hsD]
    have hstepid : ∀ l : List Nat, (∀ n ∈ l, n = s) →
        l.foldl (relax s) ⟨[], [(s, 0)], []⟩ = ⟨[], [(s, 0)], []⟩ := by
      intro l
      induction l with
      | nil => intro _; rfl
      | cons n t iht =>
        intro hl
        have hn : n = s := hl n (by simp)
        subst hn
        have hrelax : relax n (⟨[], [(n, 0)], []⟩ : DState) n =
            ⟨[], [(n, 0)], []⟩ := by
          simp [relax, aget]
        show t.foldl (relax n) (relax n ⟨[], [(n, 0)], []⟩ n) = _
        rw [hrelax]
        exact iht (fun m hm => hl m (by simp [hm]))
    have hstep' : step g (⟨[], [(s, 0)], []⟩ : DState) s =
        ⟨[], [(s, 0)], []⟩ := hstepid _ hsub
    rw [hstep']
    rw [go_none (by rfl : popMin ([] : List (Nat × Nat)) = none)]
    rfl

/-- C8 counterexample: with an empty destination set on the graph with the
single edge `1 – 2`, the code returns a path — it neither raises an
`InvalidArgument` error nor returns the no-path marker. -/
theorem claim_C8_counterexample :
    (buildG [(1, 2)] : Graph Nat).dijkstra 1 [] = some [1, 2] := by decide

/-- C8 witness: on a graph whose source has only itself as neighbor, the
empty-destination query returns `None`. -/
theorem claim_C8_witness :
    (buildG [(1, 1)] : Graph Nat).WF ∧
      ((buildG [(1, 1)] : Graph Nat).dijkstra 1 [] = none ↔
        ∀ n ∈ (buildG [(1, 1)] : Graph Nat).nbrs 1, n = 1) :=
  ⟨by decide, claim_C8_empty_destinations _ 1 (by decide)⟩

/-! ## Batch path computation (claim C4) -/

/-- Unfolding `batchPaths` from any accumulator: the fold appends exactly the
successful queries, in input order. -/
theorem batchPaths_eq_aux (g : Graph Nat) (dsts : List Nat) :
    ∀ (srcs : List Nat) (acc : List (List Nat)),
      srcs.foldl (fun ps s => match g.dijkstra s dsts with
        | some p => ps ++ [p]
        | none => ps) acc =
      acc ++ srcs.filterMap (fun s => g.dijkstra s dsts) := by
  intro srcs
  induction srcs with
  | nil => intro acc; simp
  | cons s t iht =>
    intro acc
    show t.foldl _ (match g.dijkstra s dsts with
      | some p => acc ++ [p] | none => acc) = _
    cases hd : g.dijkstra s dsts with
    | none => simp [iht, List.filterMap_cons, hd]
    | some p => simp [iht, List.filterMap_cons, hd]

/-- C4 (amended): the batch routine returns the successful paths in the
order of their sources, but drops every source whose query found no path,
so the output is `filterMap`, not an index-aligned map. -/
theorem claim_C4_batch_order (g : Graph Nat) (srcs dsts : List Nat) :
    batchPaths g srcs dsts = srcs.filterMap (fun s => g.dijkstra s dsts) := by
  show srcs.foldl _ [] = _
  rw [batchPaths_eq_aux]
  simp

/-- C4 counterexample: with sources `[10, 1]` on the single-edge graph
`1 – 2` and destination `{2}`, source `10` finds no path and is dropped, so
the output has length 1, not 2 — the i-th output is not the i-th source's
result. -/
theorem claim_C4_counterexample :
    batchPaths (buildG [(1, 2)] : Graph Nat) [10, 1] [2] = [[1, 2]] ∧
      (batchPaths (buildG [(1, 2)] : Graph Nat) [10, 1] [2]).length ≠
        ([10, 1] : List Nat).length := by decide
